import Mathlib

set_option linter.unusedSectionVars false

/-!
Verification of the retriever chunked, indexed storage engine.

This development is a shallow embedding of the Storage type from
src/types/storage.rs together with the Record trait from src/traits/record.rs.
Rust vectors become Lean lists, the chunk-key-to-position HashMap becomes an
association list accessed only through lookupKey, and operations that can
abort (index-out-of-bounds panics, failed assertions in validate, the
chunk-key assertion of add_chunk) return Option, with none standing for a
panic. The ChunkStorage type, the RVec change-tracking sequence, the Entry
and Editor helpers and the Query trait are not part of the sources under
verification; they are modelled from the specification, as marked on each
definition.
-/

section Model

variable {κ ι ε : Type} [DecidableEq κ] [DecidableEq ι] [DecidableEq ε]

/-- Embedding of the Record trait (src/traits/record.rs): a record exposes a
chunk key and an item key. The Cow wrappers of the Rust trait only avoid
clones and are dropped here. -/
structure Record (κ ι ε : Type) where
  chunk_key : ε → κ
  item_key : ε → ι

/-- The built-in Record instance for triples from src/traits/record.rs:
chunk key is the first component, item key the second. -/
def tripleRecord : Record Nat Nat (Nat × Nat × Nat) :=
  ⟨fun e => e.1, fun e => e.2.1⟩

/-- Modelled from the spec: ChunkStorage owns one chunk key and the ordered
sequence of records of that chunk (spec section 3). Its item-key-to-position
mapping is, by its stated invariant, exactly the map sending the item key of
the record at position i to i, so lookups through it are represented below
as searches by item key over the record sequence. -/
structure ChunkStorage (κ ε : Type) where
  chunk_key : κ
  records : List ε
deriving DecidableEq

/-- Lookup of a key in an association list; stands for HashMap find. -/
def lookupKey (l : List (κ × Nat)) (k : κ) : Option Nat :=
  (l.find? (fun p => decide (p.1 = k))).map (fun p => p.2)

/-- Removal of a key from an association list; stands for HashMap remove. -/
def eraseKey (l : List (κ × Nat)) (k : κ) : List (κ × Nat) :=
  l.filter (fun p => decide (p.1 ≠ k))

/-- Insert-or-replace of a binding; stands for HashMap insert. -/
def insertKey (l : List (κ × Nat)) (k : κ) (v : Nat) : List (κ × Nat) :=
  (k, v) :: eraseKey l k

/-- Embedding of Vec swap_remove: overwrite position i with the last element
and drop the last slot. On an out-of-range i with a nonempty list the Rust
call panics; all call sites below guard the position first. -/
def swapRemove (l : List α) (i : Nat) : List α :=
  match l.getLast? with
  | none => l
  | some a => (l.set i a).dropLast

/-- Pointwise update at a position, leaving the list unchanged when the
position is out of range; stands for an in-place update through a mutable
reference at a position that the caller has already bounds-checked. -/
def modifyAt (l : List α) (i : Nat) (f : α → α) : List α :=
  match l, i with
  | [], _ => []
  | a :: t, 0 => f a :: t
  | a :: t, n + 1 => a :: modifyAt t n f

/-- Modelled from the spec: insertion into a chunk overwrites any existing
record with the same item key within that chunk (spec section 4.1), which
through the item index means replacing in place the unique record carrying
that item key, else appending. -/
def upsert (R : Record κ ι ε) (e : ε) : List ε → List ε
  | [] => [e]
  | r :: rs => if R.item_key r = R.item_key e then e :: rs else r :: upsert R e rs

/-- Modelled from the spec: ChunkStorage add, the item-granularity insert
with overwrite of a same-item-key record (spec section 4.2). -/
def ChunkStorage.add (R : Record κ ι ε) (c : ChunkStorage κ ε) (e : ε) :
    ChunkStorage κ ε :=
  { c with records := upsert R e c.records }

/-- Modelled from the spec: ChunkStorage extend, the bulk add used by
add_chunk; every element is asserted to carry the chunk key of this chunk,
and a violation is a fatal abort (spec sections 4.1 and 7), here none. -/
def ChunkStorage.extend (R : Record κ ι ε) (c : ChunkStorage κ ε)
    (g : List ε) : Option (ChunkStorage κ ε) :=
  if g.all (fun e => decide (R.chunk_key e = c.chunk_key))
  then some (g.foldl (fun cc e => cc.add R e) c)
  else none

/-- Modelled from the spec: ChunkStorage get, the point lookup by item key
through the item index (spec section 4.2). -/
def ChunkStorage.get (R : Record κ ι ε) (c : ChunkStorage κ ε) (ik : ι) :
    Option ε :=
  c.records.find? (fun e => decide (R.item_key e = ik))

/-- Embedding of the Storage struct of src/types/storage.rs: the ordered
chunk collection, the queue of possibly-now-empty positions awaiting
compaction, and the chunk-key-to-position index. The process-unique id field
is omitted: it is consulted only by SecondaryIndex, which lives outside the
sources under verification. -/
structure Storage (κ ε : Type) where
  chunks : List (ChunkStorage κ ε)
  dirty : List Nat
  index : List (κ × Nat)
deriving DecidableEq

/-- Embedding of Storage::new. -/
def Storage.new : Storage κ ε := ⟨[], [], []⟩

/-- Embedding of Storage::internal_idx_of. -/
def Storage.internal_idx_of (s : Storage κ ε) (k : κ) : Option Nat :=
  lookupKey s.index k

/-- Embedding of the lookup-or-create part of Storage::chunk: the position of
the chunk with the given key, creating and indexing a fresh empty chunk at
the end of the collection when the key is unseen. -/
def Storage.chunkIdx (s : Storage κ ε) (k : κ) : Nat × Storage κ ε :=
  match lookupKey s.index k with
  | some i => (i, s)
  | none =>
      (s.chunks.length,
       { s with
         chunks := s.chunks ++ [⟨k, []⟩],
         index := insertKey s.index k s.chunks.length })

/-- Embedding of Storage::chunk: lookup-or-create, then push the position
onto the compaction queue when the dirty flag is set. -/
def Storage.chunk (s : Storage κ ε) (k : κ) (dirtyFlag : Bool) :
    Nat × Storage κ ε :=
  let pr := s.chunkIdx k
  (pr.1, if dirtyFlag then { pr.2 with dirty := pr.2.dirty ++ [pr.1] } else pr.2)

/-- Embedding of one iteration of the compaction loop in Storage::clean: read
the chunk at the queued position (an out-of-range position panics, none
here), skip it when it is not empty, otherwise unindex it, swap-remove it,
and re-index whatever chunk now occupies the vacated position. -/
def cleanStep (s : Storage κ ε) (idx : Nat) : Option (Storage κ ε) :=
  (s.chunks[idx]?).bind (fun c =>
    if c.records.isEmpty then
      some
        (((swapRemove s.chunks idx)[idx]?).elim
          ⟨swapRemove s.chunks idx, s.dirty, eraseKey s.index c.chunk_key⟩
          (fun c₂ =>
            ⟨swapRemove s.chunks idx, s.dirty,
             insertKey (eraseKey s.index c.chunk_key) c₂.chunk_key idx⟩))
    else some s)

/-- The compaction loop of Storage::clean over the already-sorted queue. -/
def cleanGo : List Nat → Storage κ ε → Option (Storage κ ε)
  | [], s => some s
  | i :: rest, s => (cleanStep s i).bind (cleanGo rest)

/-- Embedding of Storage::clean: return at once when the queue is empty, else
sort the queue ascending, process it in descending order, and clear it. The
Rust code sorts with sort_unstable; on natural numbers every sort produces
the same ascending list, rendered here with insertion sort. -/
def Storage.clean (s : Storage κ ε) : Option (Storage κ ε) :=
  if s.dirty.isEmpty then some s
  else
    (cleanGo ((List.insertionSort (· ≤ ·) s.dirty).reverse) s).map
      (fun st => { st with dirty := [] })

/-- Embedding of Storage::add: compact, then route the element to the chunk
of its chunk key (creating it when unseen) and insert with overwrite. -/
def Storage.add (R : Record κ ι ε) (s : Storage κ ε) (e : ε) :
    Option (Storage κ ε) :=
  (s.clean).map (fun s₁ =>
    let pr := s₁.chunkIdx (R.chunk_key e)
    { pr.2 with chunks := modifyAt pr.2.chunks pr.1 (fun c => c.add R e) })

/-- Embedding of Storage::add_chunk: compact, then peek the first element of
the group, route the whole group to the chunk of its chunk key and extend. -/
def Storage.add_chunk (R : Record κ ι ε) (s : Storage κ ε) (g : List ε) :
    Option (Storage κ ε) :=
  (s.clean).bind (fun s₁ =>
    match g with
    | [] => some s₁
    | e :: _ =>
        let pr := s₁.chunkIdx (R.chunk_key e)
        (pr.2.chunks[pr.1]?).bind (fun c =>
          (c.extend R g).map (fun c₂ =>
            { pr.2 with chunks := pr.2.chunks.set pr.1 c₂ })))

/-- Embedding of Storage::add_chunks: compact, then add_chunk every group. -/
def Storage.add_chunks (R : Record κ ι ε) (s : Storage κ ε)
    (gs : List (List ε)) : Option (Storage κ ε) :=
  (s.clean).bind (fun s₁ => gs.foldlM (fun st g => st.add_chunk R g) s₁)

/-- Embedding of Storage::dissolve: the list of chunks, each rendered as its
record sequence. -/
def Storage.dissolve (s : Storage κ ε) : List (List ε) :=
  s.chunks.map (fun c => c.records)

/-- Embedding of Storage::raw: serial read-only access to the record
sequences of all chunks, identical in content to dissolve. -/
def Storage.raw (s : Storage κ ε) : List (List ε) :=
  s.chunks.map (fun c => c.records)

/-- Embedding of Storage::get: chunk lookup through the index, then item
lookup within the chunk; either key being unknown yields none. The source
takes a shared reference and therefore cannot mutate the storage. -/
def Storage.get (R : Record κ ι ε) (s : Storage κ ε) (ck : κ) (ik : ι) :
    Option ε :=
  (lookupKey s.index ck).bind (fun idx =>
    (s.chunks[idx]?).bind (fun c => c.get R ik))

/-- Embedding of the storage-state effect of Storage::entry: compact, then
look up or create the chunk of the requested chunk key and mark its position
dirty, before the Entry handle is handed to the caller. The accessor methods
of the handle itself live outside the sources under verification; this
definition is the state entry leaves behind when the caller inserts
nothing. -/
def Storage.entry (s : Storage κ ε) (ck : κ) :
    Option (Storage κ ε) :=
  (s.clean).map (fun s₁ => (s₁.chunk ck true).2)

/-- Embedding of Storage::iter: every record of every chunk, in chunk order
then item order. -/
def Storage.iter (s : Storage κ ε) : List ε :=
  (s.chunks.map (fun c => c.records)).flatten

/-- Embedding of Storage::chunk_keys: the chunk key of every chunk currently
in the collection. -/
def Storage.chunk_keys (s : Storage κ ε) : List κ :=
  s.chunks.map (fun c => c.chunk_key)

/-- Modelled from the spec: a Query resolves, against a Storage, the set of
chunk positions to visit, and against one ChunkStorage the set of item
positions to visit within it (spec section 4.3). The abstract index sets are
rendered as position lists. -/
structure Query (κ ε : Type) where
  chunkIdxs : Storage κ ε → List Nat
  itemIdxs : ChunkStorage κ ε → List Nat

/-- Modelled from the spec: the Everything query, full chunk range and full
item range. -/
def everything : Query κ ε :=
  ⟨fun s => List.range s.chunks.length, fun c => List.range c.records.length⟩

/-- Modelled from the spec: queries produced by the built-in combinators
resolve to pairwise-distinct positions lying inside the collection they were
resolved against. -/
def QueryWF (q : Query κ ε) : Prop :=
  (∀ s : Storage κ ε, (q.chunkIdxs s).Nodup ∧
    ∀ i ∈ q.chunkIdxs s, i < s.chunks.length) ∧
  (∀ c : ChunkStorage κ ε, (q.itemIdxs c).Nodup ∧
    ∀ i ∈ q.itemIdxs c, i < c.records.length)

/-- Modelled from the spec: ChunkStorage query, yielding the records at the
item positions the query resolves to. -/
def ChunkStorage.queryQ (q : Query κ ε) (c : ChunkStorage κ ε) : List ε :=
  (q.itemIdxs c).filterMap (fun i => c.records[i]?)

/-- Embedding of Storage::query: resolve the chunk positions, then within
each selected chunk delegate item-level resolution. Built-in queries only
produce in-range positions; an out-of-range position, which would panic in
the source, contributes nothing here. -/
def Storage.query (s : Storage κ ε) (q : Query κ ε) : List ε :=
  ((q.chunkIdxs s).map (fun idx =>
    (s.chunks[idx]?).elim [] (fun c => c.queryQ q))).flatten

/-- Modelled from the spec: ChunkStorage modify applies the caller callback,
through the Editor, to the records at the item positions the query resolves
to. The callback is rendered as the record transformation the caller
performs through Editor get_mut. -/
def ChunkStorage.modifyQ (q : Query κ ε) (f : ε → ε) (c : ChunkStorage κ ε) :
    ChunkStorage κ ε :=
  let sel := q.itemIdxs c
  { c with
    records := c.records.enum.map (fun p => if p.1 ∈ sel then f p.2 else p.2) }

/-- The per-chunk loop of Storage::modify: visit each resolved chunk position
and run the chunk-level modify there. The compaction queue is not touched. -/
def modifyLoop (q : Query κ ε) (f : ε → ε) (st : Storage κ ε)
    (idxs : List Nat) : Storage κ ε :=
  idxs.foldl (fun t idx => { t with chunks := modifyAt t.chunks idx (fun c => c.modifyQ q f) }) st

/-- Embedding of Storage::modify: compact first, then resolve the chunk
positions and modify each selected chunk in turn. -/
def Storage.modify (s : Storage κ ε) (q : Query κ ε) (f : ε → ε) :
    Option (Storage κ ε) :=
  (s.clean).map (fun s₁ => modifyLoop q f s₁ (q.chunkIdxs s₁))

/-- A spec-following variant of modify for comparison with the embedding: the
spec sentence behind claim C4 has modify mark every visited chunk dirty
before processing that chunk, the way remove does. -/
def Storage.modifyMarking (s : Storage κ ε) (q : Query κ ε) (f : ε → ε) :
    Option (Storage κ ε) :=
  (s.clean).map (fun s₁ =>
    (q.chunkIdxs s₁).foldl
      (fun t idx =>
        { t with
          dirty := t.dirty ++ [idx],
          chunks := modifyAt t.chunks idx (fun c => c.modifyQ q f) })
      s₁)

/-- Modelled from the spec: ChunkStorage remove splits the chunk records at
the item positions the query resolves to; the selected records are removed
and each of them is handed to the caller callback, collected here as the
second component. Removal order inside the chunk follows swap-to-end
removal in the source, and item order within a chunk is explicitly not
stable across deletions (spec section 4.2), so the surviving records are
kept in their relative order. -/
def ChunkStorage.removeQ (q : Query κ ε) (c : ChunkStorage κ ε) :
    ChunkStorage κ ε × List ε :=
  let sel := q.itemIdxs c
  ({ c with
     records := (c.records.enum.filter (fun p => decide (p.1 ∉ sel))).map (fun p => p.2) },
   (c.records.enum.filter (fun p => decide (p.1 ∈ sel))).map (fun p => p.2))

/-- The per-chunk loop of Storage::remove: push each resolved chunk position
onto the compaction queue, then run the chunk-level removal there, handing
every removed record to the callback. An out-of-range resolved position
would panic in the source and is skipped here; built-in queries only resolve
in-range positions. -/
def removeLoop (q : Query κ ε) : List Nat → Storage κ ε → List ε →
    Storage κ ε × List ε
  | [], st, out => (st, out)
  | idx :: rest, st, out =>
      let st₁ : Storage κ ε := { st with dirty := st.dirty ++ [idx] }
      match st₁.chunks[idx]? with
      | some c =>
          let pr := c.removeQ q
          removeLoop q rest { st₁ with chunks := st₁.chunks.set idx pr.1 }
            (out ++ pr.2)
      | none => removeLoop q rest st₁ out

/-- Embedding of Storage::remove: resolve the chunk positions against the
uncompacted storage, mark and process each of them, then compact. The second
component collects every record handed to the caller callback. -/
def Storage.remove (s : Storage κ ε) (q : Query κ ε) :
    Option (Storage κ ε × List ε) :=
  let pr := removeLoop q (q.chunkIdxs s) s []
  (pr.1.clean).map (fun s₂ => (s₂, pr.2))

/-- Embedding of Storage::remove_chunk: compact, then unindex the requested
chunk key, returning the compacted storage and none when the key is unknown,
else swap-remove the chunk and return its records. The source does not
re-index the chunk that lands in the vacated position. -/
def Storage.remove_chunk (s : Storage κ ε) (k : κ) :
    Option (Storage κ ε × Option (List ε)) :=
  (s.clean).bind (fun s₁ =>
    match lookupKey s₁.index k with
    | none => some (s₁, none)
    | some idx =>
        (s₁.chunks[idx]?).map (fun c =>
          ({ s₁ with
             index := eraseKey s₁.index k,
             chunks := swapRemove s₁.chunks idx },
           some c.records)))

/-- Modelled from the spec: the per-chunk validation of ChunkStorage, per the
invariants of spec section 3: every record carries the chunk key of its
chunk, and item keys are unique within the chunk. -/
def chunkValid (R : Record κ ι ε) (c : ChunkStorage κ ε) : Prop :=
  (∀ e ∈ c.records, R.chunk_key e = c.chunk_key) ∧
  (c.records.map R.item_key).Nodup

instance (R : Record κ ι ε) (c : ChunkStorage κ ε) : Decidable (chunkValid R c) := by
  unfold chunkValid; infer_instance

/-- The assertions of Storage::validate, checked after the initial
compaction: every chunk is indexed at its position, every index entry points
at an in-range chunk carrying the indexed key and holding at least one
record, and every chunk satisfies its own validation. An index entry whose
position is out of range panics the source loop and fails here. -/
def storageChecks (R : Record κ ι ε) (s : Storage κ ε) : Prop :=
  (∀ i ∈ List.range s.chunks.length,
    (s.chunks[i]?).map (fun c => lookupKey s.index c.chunk_key) = some (some i)) ∧
  (∀ p ∈ s.index,
    (s.chunks[p.2]?).map (fun c => c.chunk_key) = some p.1 ∧
    ¬(s.chunks[p.2]?).map (fun c => c.records.length) = some 0) ∧
  (∀ c ∈ s.chunks, chunkValid R c)

instance (R : Record κ ι ε) (s : Storage κ ε) : Decidable (storageChecks R s) := by
  unfold storageChecks; infer_instance

/-- Embedding of Storage::validate: compact, then panic unless every
assertion holds; some returns the storage the assertions were checked on. -/
def Storage.validate (R : Record κ ι ε) (s : Storage κ ε) :
    Option (Storage κ ε) :=
  (s.clean).bind (fun s₁ => if storageChecks R s₁ then some s₁ else none)

/-- Embedding of the removed-key accumulation in Storage::gc: with window
width one, slot i of the previous snapshot is compared against chunk i of the
current collection; a slot past the end of the collection contributes its
previous key, and a slot whose current chunk key differs from its previous
summary contributes its previous key, exactly as the reduce closure inserts
into the removed set. The reduce traversal of the missing RVec type is
modelled from the spec: it visits the slots whose summary changed, and
visiting an unchanged slot runs the same closure with no effect. -/
def gcRemoved (s : Storage κ ε) (chunk_list : List (Option κ)) : List κ :=
  (List.range (max s.chunks.length chunk_list.length)).flatMap (fun i =>
    let p := (chunk_list[i]?).getD none
    match s.chunks[i]? with
    | some c => if p = some c.chunk_key then [] else p.toList
    | none => p.toList)

/-- Embedding of the added-key accumulation in Storage::gc: a slot whose
current chunk key differs from its previous summary contributes its current
chunk key, exactly as the reduce closure inserts into the added set. -/
def gcAdded (s : Storage κ ε) (chunk_list : List (Option κ)) : List κ :=
  (List.range s.chunks.length).flatMap (fun i =>
    let p := (chunk_list[i]?).getD none
    match s.chunks[i]? with
    | some c => if p = some c.chunk_key then [] else [c.chunk_key]
    | none => [])

/-- Embedding of the snapshot the reduce pass of Storage::gc leaves behind:
slot i keeps its previous summary when it matches the current chunk key and
is overwritten with the current chunk key otherwise, then the snapshot is
truncated to the current collection length. -/
def gcSnapshot (s : Storage κ ε) (chunk_list : List (Option κ)) :
    List (Option κ) :=
  (List.range s.chunks.length).map (fun i =>
    match s.chunks[i]? with
    | some c =>
        let p := (chunk_list[i]?).getD none
        if p = some c.chunk_key then p else some c.chunk_key
    | none => none)

/-- Embedding of Storage::gc: run the change-tracking pass over the rolling
snapshot, then drop from the derived map every entry whose chunk key is in
the removed set but not in the added set. Returns the updated snapshot and
the updated derived map. -/
def Storage.gc {T : Type} (s : Storage κ ε) (chunk_list : List (Option κ))
    (data : List (κ × T)) : List (Option κ) × List (κ × T) :=
  let removed := gcRemoved s chunk_list
  let added := gcAdded s chunk_list
  (gcSnapshot s chunk_list,
   data.filter (fun kv => decide (¬(kv.1 ∈ removed ∧ kv.1 ∉ added))))

end Model

section Invariant

variable {κ ι ε : Type} [DecidableEq κ] [DecidableEq ι] [DecidableEq ε]

/-- Every chunk position is indexed under the key of its chunk. -/
def indexComplete (s : Storage κ ε) : Prop :=
  ∀ i ∈ List.range s.chunks.length,
    (s.chunks[i]?).map (fun c => lookupKey s.index c.chunk_key) = some (some i)

/-- Every index entry points at an in-range chunk carrying the entry key. -/
def indexSound (s : Storage κ ε) : Prop :=
  ∀ p ∈ s.index, (s.chunks[p.2]?).map (fun c => c.chunk_key) = some p.1

/-- The index holds at most one entry per key, as a HashMap does. -/
def indexKeysNodup (s : Storage κ ε) : Prop :=
  (s.index.map Prod.fst).Nodup

/-- Every record lives in the chunk of its own chunk key. -/
def chunksHomog (R : Record κ ι ε) (s : Storage κ ε) : Prop :=
  ∀ c ∈ s.chunks, ∀ e ∈ c.records, R.chunk_key e = c.chunk_key

/-- Item keys are unique within each chunk. -/
def chunksItemsNodup (R : Record κ ι ε) (s : Storage κ ε) : Prop :=
  ∀ c ∈ s.chunks, (c.records.map R.item_key).Nodup

/-- Every currently-empty chunk position sits in the compaction queue. -/
def emptiesQueued (s : Storage κ ε) : Prop :=
  ∀ p ∈ s.chunks.enum, p.2.records = [] → p.1 ∈ s.dirty

/-- The compaction queue holds pairwise-distinct in-range positions. This is
the shape the queue has whenever a public operation returns: most operations
leave it empty and entry leaves exactly one position in it. -/
def dirtyOk (s : Storage κ ε) : Prop :=
  s.dirty.Nodup ∧ ∀ i ∈ s.dirty, i < s.chunks.length

/-- The well-formedness invariant every publicly reachable storage satisfies
between operations. -/
def StorageWF (R : Record κ ι ε) (s : Storage κ ε) : Prop :=
  indexComplete s ∧ indexSound s ∧ indexKeysNodup s ∧
  chunksHomog R s ∧ chunksItemsNodup R s ∧ emptiesQueued s ∧ dirtyOk s

instance (s : Storage κ ε) : Decidable (indexComplete s) := by
  unfold indexComplete; infer_instance

instance (s : Storage κ ε) : Decidable (indexSound s) := by
  unfold indexSound; infer_instance

instance (s : Storage κ ε) : Decidable (indexKeysNodup s) := by
  unfold indexKeysNodup; infer_instance

instance (R : Record κ ι ε) (s : Storage κ ε) : Decidable (chunksHomog R s) := by
  unfold chunksHomog; infer_instance

instance (R : Record κ ι ε) (s : Storage κ ε) : Decidable (chunksItemsNodup R s) := by
  unfold chunksItemsNodup; infer_instance

instance (s : Storage κ ε) : Decidable (emptiesQueued s) := by
  unfold emptiesQueued; infer_instance

instance (s : Storage κ ε) : Decidable (dirtyOk s) := by
  unfold dirtyOk; infer_instance

instance (R : Record κ ι ε) (s : Storage κ ε) : Decidable (StorageWF R s) := by
  unfold StorageWF; infer_instance

end Invariant


section Sequences

variable {κ ι ε : Type} [DecidableEq κ] [DecidableEq ι] [DecidableEq ε]

/-- A sequence of add calls, each compacting and inserting in turn; none
stands for a panic somewhere in the sequence. -/
def addAll (R : Record κ ι ε) (t : Storage κ ε) : List ε → Option (Storage κ ε)
  | [] => some t
  | e :: es => (Storage.add R t e).bind (fun t₁ => addAll R t₁ es)

end Sequences

section SampleStorages

/-- A concrete storage with one populated chunk and one empty chunk pending
compaction, in the shape entry leaves behind. -/
def samplePending : Storage Nat (Nat × Nat × Nat) :=
  ⟨[⟨1, [(1, 1, 5)]⟩, ⟨2, []⟩], [1], [(2, 1), (1, 0)]⟩

/-- A concrete fully-compacted storage with two chunks and three records. -/
def sampleSettled : Storage Nat (Nat × Nat × Nat) :=
  ⟨[⟨1, [(1, 1, 10), (1, 2, 11)]⟩, ⟨2, [(2, 1, 20)]⟩], [], [(1, 0), (2, 1)]⟩

end SampleStorages


section AssocLemmas

variable {κ ι ε : Type} [DecidableEq κ] [DecidableEq ι] [DecidableEq ε]

theorem lookupKey_nil (k : κ) : lookupKey ([] : List (κ × Nat)) k = none := rfl

theorem lookupKey_cons (a : κ) (b : Nat) (l : List (κ × Nat)) (k : κ) :
    lookupKey ((a, b) :: l) k = if a = k then some b else lookupKey l k := by
  unfold lookupKey
  rw [List.find?_cons]
  by_cases h : a = k <;> simp [h]

theorem eraseKey_nil (k : κ) : eraseKey ([] : List (κ × Nat)) k = [] := rfl

theorem eraseKey_cons (a : κ) (b : Nat) (l : List (κ × Nat)) (k : κ) :
    eraseKey ((a, b) :: l) k =
      if a = k then eraseKey l k else (a, b) :: eraseKey l k := by
  unfold eraseKey
  rw [List.filter_cons]
  by_cases h : a = k <;> simp [h]

theorem lookupKey_eq_none {l : List (κ × Nat)} {k : κ}
    (h : ∀ p ∈ l, p.1 ≠ k) : lookupKey l k = none := by
  induction l with
  | nil => rfl
  | cons p t ih =>
      cases p with
      | mk a b =>
          rw [lookupKey_cons]
          rw [if_neg (h (a, b) (by simp))]
          exact ih (fun p hp => h p (by simp [hp]))

theorem mem_of_lookupKey_eq_some {l : List (κ × Nat)} {k : κ} {v : Nat}
    (h : lookupKey l k = some v) : (k, v) ∈ l := by
  induction l with
  | nil => simp [lookupKey_nil] at h
  | cons p t ih =>
      cases p with
      | mk a b =>
          rw [lookupKey_cons] at h
          by_cases ha : a = k
      
          · rw [if_pos ha] at h
            cases h
            cases ha
            simp
          · rw [if_neg ha] at h
            simp [ih h]

theorem lookupKey_isSome_of_mem {l : List (κ × Nat)} {k : κ} {v : Nat}
    (h : (k, v) ∈ l) : (lookupKey l k).isSome := by
  induction l with
  | nil => simp at h
  | cons p t ih =>
      cases p with
      | mk a b =>
          rw [lookupKey_cons]
          by_cases ha : a = k
          · simp [ha]
          · rw [if_neg ha]
            rcases List.mem_cons.mp h with h₁ | h₂
            · cases h₁; exact absurd rfl ha
            · exact ih h₂

theorem eraseKey_mem {l : List (κ × Nat)} {k : κ} {p : κ × Nat} :
    p ∈ eraseKey l k ↔ p ∈ l ∧ p.1 ≠ k := by
  unfold eraseKey
  simp [List.mem_filter]

theorem lookupKey_eraseKey_self (l : List (κ × Nat)) (k : κ) :
    lookupKey (eraseKey l k) k = none := by
  apply lookupKey_eq_none
  intro p hp
  exact (eraseKey_mem.mp hp).2

theorem lookupKey_eraseKey_ne (l : List (κ × Nat)) {k k₂ : κ} (h : k₂ ≠ k) :
    lookupKey (eraseKey l k) k₂ = lookupKey l k₂ := by
  induction l with
  | nil => rfl
  | cons p t ih =>
      cases p with
      | mk a b =>
          rw [eraseKey_cons]
          by_cases ha : a = k
          · rw [if_pos ha, lookupKey_cons, if_neg (by rw [ha]; exact Ne.symm h), ih]
          · rw [if_neg ha, lookupKey_cons, lookupKey_cons, ih]

theorem lookupKey_insertKey_self (l : List (κ × Nat)) (k : κ) (v : Nat) :
    lookupKey (insertKey l k v) k = some v := by
  unfold insertKey
  rw [lookupKey_cons, if_pos rfl]

theorem lookupKey_insertKey_ne (l : List (κ × Nat)) {k k₂ : κ} (v : Nat)
    (h : k₂ ≠ k) : lookupKey (insertKey l k v) k₂ = lookupKey l k₂ := by
  unfold insertKey
  rw [lookupKey_cons, if_neg (Ne.symm h), lookupKey_eraseKey_ne l h]

theorem eraseKey_keysNodup {l : List (κ × Nat)} (h : (l.map Prod.fst).Nodup)
    (k : κ) : ((eraseKey l k).map Prod.fst).Nodup := by
  apply List.Nodup.sublist _ h
  exact List.Sublist.map _ (List.filter_sublist l)

theorem insertKey_keysNodup {l : List (κ × Nat)} (h : (l.map Prod.fst).Nodup)
    (k : κ) (v : Nat) : ((insertKey l k v).map Prod.fst).Nodup := by
  unfold insertKey
  simp only [List.map_cons, List.nodup_cons]
  constructor
  · intro hk
    rcases List.mem_map.mp hk with ⟨p, hp, hpk⟩
    exact (eraseKey_mem.mp hp).2 hpk
  · exact eraseKey_keysNodup h k

theorem insertKey_mem {l : List (κ × Nat)} {k : κ} {v : Nat} {p : κ × Nat} :
    p ∈ insertKey l k v ↔ p = (k, v) ∨ (p ∈ l ∧ p.1 ≠ k) := by
  unfold insertKey
  simp [eraseKey_mem]

theorem eraseKey_eq_self_of_lookupKey_none {l : List (κ × Nat)} {k : κ}
    (h : lookupKey l k = none) : eraseKey l k = l := by
  unfold eraseKey
  apply List.filter_eq_self.mpr
  intro p hp
  by_contra hne
  simp only [decide_eq_true_eq] at hne
  have hk : p.1 = k := by
    by_contra hx
    exact hne (by simpa using hx)
  have hmem : (k, p.2) ∈ l := by
    cases p
    cases hk
    exact hp
  have := lookupKey_isSome_of_mem hmem
  rw [h] at this; simp at this

end AssocLemmas

section SwapRemoveLemmas

variable {α : Type}

theorem set_getElem_self (l : List α) (i : Nat) (h : i < l.length) :
    l.set i l[i] = l := by
  apply List.ext_getElem <;> simp [List.getElem_set]
  intro n h1 h2
  intro he
  cases he
  rfl

theorem swapRemove_nil (i : Nat) : swapRemove ([] : List α) i = [] := rfl

theorem swapRemove_eq_dropLast_set {l : List α} (h : l ≠ []) (i : Nat) :
    swapRemove l i = (l.set i (l.getLast h)).dropLast := by
  unfold swapRemove
  rw [List.getLast?_eq_getLast l h]

theorem swapRemove_length {l : List α} (h : l ≠ []) (i : Nat) :
    (swapRemove l i).length = l.length - 1 := by
  rw [swapRemove_eq_dropLast_set h i, List.length_dropLast, List.length_set]

theorem swapRemove_getElem? {l : List α} (hne : l ≠ []) (i : Nat) {j : Nat}
    (hj : j < l.length - 1) :
    (swapRemove l i)[j]? =
      some (if i = j then l.getLast hne
            else l.get ⟨j, Nat.lt_of_lt_of_le hj (Nat.sub_le _ _)⟩) := by
  rw [swapRemove_eq_dropLast_set hne i]
  have h1 : j < ((l.set i (l.getLast hne)).dropLast).length := by
    rw [List.length_dropLast, List.length_set]; exact hj
  rw [List.getElem?_eq_getElem h1]
  congr 1
  rw [List.getElem_dropLast, List.getElem_set]
  by_cases h : i = j
  · rw [if_pos h, if_pos h]
  · rw [if_neg h, if_neg h, List.get_eq_getElem]

theorem swapRemove_last {l : List α} (hne : l ≠ []) :
    swapRemove l (l.length - 1) = l.dropLast := by
  rw [swapRemove_eq_dropLast_set hne]
  rw [List.getLast_eq_getElem l hne, set_getElem_self]

theorem dropLast_eq_eraseIdx_last (l : List α) :
    l.dropLast = l.eraseIdx (l.length - 1) := by
  rw [List.dropLast_eq_take, List.eraseIdx_eq_take_drop_succ]
  cases l with
  | nil => rfl
  | cons a t =>
      have h2 : (a :: t).length - 1 + 1 = (a :: t).length := by simp
      rw [h2, List.drop_length, List.append_nil]

theorem getLast_eq_getLast_drop {l : List α} (hne : l ≠ []) {i : Nat}
    (hi : i < l.length)
    (hd : l.drop i ≠ []) : (l.drop i).getLast hd = l.getLast hne := by
  rw [List.getLast_eq_getElem _ hd, List.getLast_eq_getElem l hne,
    List.getElem_drop]
  congr 1
  rw [List.length_drop]
  omega

theorem swapRemove_perm {l : List α} {i : Nat} (hi : i < l.length) :
    (swapRemove l i).Perm (l.eraseIdx i) := by
  have hne : l ≠ [] := List.ne_nil_of_length_pos (Nat.lt_of_le_of_lt (Nat.zero_le _) hi)
  by_cases hlast : i = l.length - 1
  · rw [hlast, swapRemove_last hne, dropLast_eq_eraseIdx_last]
  · have hi₂ : i < l.length - 1 := by omega
    have hdrop : l.drop (i + 1) ≠ [] := by
      apply List.ne_nil_of_length_pos
      rw [List.length_drop]
      omega
    rw [swapRemove_eq_dropLast_set hne i]
    rw [List.set_eq_take_append_cons_drop, if_pos hi]
    rw [List.dropLast_append_of_ne_nil _ (by simp)]
    rw [List.dropLast_cons_of_ne_nil hdrop]
    rw [List.eraseIdx_eq_take_drop_succ]
    have hsplit : l.drop (i + 1) =
        (l.drop (i + 1)).dropLast ++ [l.getLast hne] := by
      conv_lhs => rw [← List.dropLast_append_getLast hdrop]
      rw [getLast_eq_getLast_drop hne (by omega) hdrop]
    have hperm : (l.getLast hne :: (l.drop (i + 1)).dropLast).Perm
        (l.drop (i + 1)) := by
      conv_rhs => rw [hsplit]
      exact (List.perm_append_singleton _ _).symm
    exact List.Perm.append_left _ hperm

theorem eraseIdx_cons_perm (l : List α) {i : Nat} (hi : i < l.length) :
    (l[i] :: l.eraseIdx i).Perm l := by
  rw [List.eraseIdx_eq_take_drop_succ]
  have h3 : l.take i ++ l[i] :: l.drop (i + 1) = l := by
    rw [← List.drop_eq_getElem_cons hi, List.take_append_drop]
  have h2 : (l[i] :: (l.take i ++ l.drop (i + 1))).Perm
      (l.take i ++ l[i] :: l.drop (i + 1)) := List.perm_middle.symm
  rw [h3] at h2
  exact h2

theorem set_cons_perm {l : List α} {i : Nat} (hi : i < l.length) (a : α) :
    (l.set i a).Perm (a :: l.eraseIdx i) := by
  rw [List.set_eq_take_append_cons_drop, if_pos hi,
    List.eraseIdx_eq_take_drop_succ]
  exact List.perm_middle

end SwapRemoveLemmas

section IndexLemmas

variable {κ ι ε : Type} [DecidableEq κ] [DecidableEq ι] [DecidableEq ε]

theorem getElem?_getLast {l : List ε} (hne : l ≠ []) :
    l[l.length - 1]? = some (l.getLast hne) := by
  rw [List.getLast_eq_getElem, List.getElem?_eq_getElem]

theorem indexComplete_lookup {s : Storage κ ε} (hc : indexComplete s) {i : Nat}
    {c : ChunkStorage κ ε} (h : s.chunks[i]? = some c) :
    lookupKey s.index c.chunk_key = some i := by
  have hi : i < s.chunks.length := (List.getElem?_eq_some.mp h).1
  have h2 := hc i (List.mem_range.mpr hi)
  rw [h] at h2
  simpa using h2

theorem indexSound_chunk {s : Storage κ ε} (hs : indexSound s) {p : κ × Nat}
    (hp : p ∈ s.index) :
    ∃ c : ChunkStorage κ ε, s.chunks[p.2]? = some c ∧ c.chunk_key = p.1 := by
  have h2 := hs p hp
  cases hcl : s.chunks[p.2]? with
  | none => rw [hcl] at h2; simp at h2
  | some c =>
      rw [hcl] at h2
      simp only [Option.map_some'] at h2
      exact ⟨c, rfl, by injection h2⟩

theorem lookupKey_some_chunk {s : Storage κ ε} (hs : indexSound s) {k : κ}
    {i : Nat} (h : lookupKey s.index k = some i) :
    ∃ c : ChunkStorage κ ε, s.chunks[i]? = some c ∧ c.chunk_key = k :=
  indexSound_chunk hs (mem_of_lookupKey_eq_some h)

theorem chunks_pos_inj {s : Storage κ ε} (hc : indexComplete s) {i j : Nat}
    {a b : ChunkStorage κ ε} (ha : s.chunks[i]? = some a)
    (hb : s.chunks[j]? = some b) (hk : a.chunk_key = b.chunk_key) : i = j := by
  have h1 := indexComplete_lookup hc ha
  have h2 := indexComplete_lookup hc hb
  rw [hk] at h1
  rw [h1] at h2
  injection h2

theorem lookupKey_none_of_no_chunk {s : Storage κ ε} (hsound : indexSound s)
    {k : κ} (h : ∀ c ∈ s.chunks, c.chunk_key ≠ k) :
    lookupKey s.index k = none := by
  cases hl : lookupKey s.index k with
  | none => rfl
  | some i =>
      rcases lookupKey_some_chunk hsound hl with ⟨c, hci, hck⟩
      have hmem : c ∈ s.chunks := by
        rw [List.mem_iff_getElem?]
        exact ⟨i, hci⟩
      exact absurd hck (h c hmem)

end IndexLemmas

section CleanStepLemmas

variable {κ ι ε : Type} [DecidableEq κ] [DecidableEq ι] [DecidableEq ε]

theorem cleanStep_oob {s : Storage κ ε} {i : Nat}
    (h : s.chunks[i]? = none) : cleanStep s i = none := by
  unfold cleanStep
  rw [h]
  rfl

theorem cleanStep_nonempty {s : Storage κ ε} {i : Nat} {c : ChunkStorage κ ε}
    (hci : s.chunks[i]? = some c) (hemp : c.records ≠ []) :
    cleanStep s i = some s := by
  unfold cleanStep
  rw [hci]
  simp only [Option.some_bind]
  rw [if_neg (by simpa [List.isEmpty_iff] using hemp)]

theorem cleanStep_empty_last {s : Storage κ ε} {i : Nat} {c : ChunkStorage κ ε}
    (hci : s.chunks[i]? = some c) (hemp : c.records = [])
    (hlast : i = s.chunks.length - 1) :
    cleanStep s i =
      some ⟨swapRemove s.chunks i, s.dirty, eraseKey s.index c.chunk_key⟩ := by
  have hne : s.chunks ≠ [] := by
    intro hnil
    rw [hnil] at hci
    simp at hci
  have hnone : (swapRemove s.chunks i)[i]? = none := by
    apply List.getElem?_eq_none_iff.mpr
    rw [swapRemove_length hne]
    omega
  unfold cleanStep
  rw [hci]
  simp only [Option.some_bind]
  rw [if_pos (by simpa [List.isEmpty_iff] using hemp), hnone]
  rfl

theorem cleanStep_empty_mid {s : Storage κ ε} {i : Nat} {c : ChunkStorage κ ε}
    (hne : s.chunks ≠ [])
    (hci : s.chunks[i]? = some c) (hemp : c.records = [])
    (hmid : i < s.chunks.length - 1) :
    cleanStep s i =
      some ⟨swapRemove s.chunks i, s.dirty,
        insertKey (eraseKey s.index c.chunk_key)
          (s.chunks.getLast hne).chunk_key i⟩ := by
  have hsome : (swapRemove s.chunks i)[i]? = some (s.chunks.getLast hne) := by
    rw [swapRemove_getElem? hne i hmid, if_pos rfl]
  unfold cleanStep
  rw [hci]
  simp only [Option.some_bind]
  rw [if_pos (by simpa [List.isEmpty_iff] using hemp), hsome]
  rfl

theorem cleanStep_empty_bundle {s : Storage κ ε} {i : Nat}
    {c : ChunkStorage κ ε}
    (hci : s.chunks[i]? = some c) (hemp : c.records = [])
    (hc : indexComplete s) (hs : indexSound s) (hn : indexKeysNodup s) :
    ∃ s₁ : Storage κ ε, cleanStep s i = some s₁ ∧
      s₁.dirty = s.dirty ∧
      s₁.chunks = swapRemove s.chunks i ∧
      indexComplete s₁ ∧ indexSound s₁ ∧ indexKeysNodup s₁ := by
  have hiL : i < s.chunks.length := (List.getElem?_eq_some.mp hci).1
  have hne : s.chunks ≠ [] := by
    intro hnil
    rw [hnil] at hci
    simp at hci
  have hclElem : s.chunks[s.chunks.length - 1]? = some (s.chunks.getLast hne) :=
    getElem?_getLast hne
  have hLen : (swapRemove s.chunks i).length = s.chunks.length - 1 :=
    swapRemove_length hne i
  have htransfer : ∀ j : Nat, j ≠ i → j < s.chunks.length - 1 →
      (swapRemove s.chunks i)[j]? = s.chunks[j]? := by
    intro j hji hj
    rw [swapRemove_getElem? hne i hj, if_neg (fun he => hji he.symm)]
    rw [List.getElem?_eq_getElem (Nat.lt_of_lt_of_le hj (Nat.sub_le _ _))]
    rw [List.get_eq_getElem]
  by_cases hlast : i = s.chunks.length - 1
  · refine ⟨_, cleanStep_empty_last hci hemp hlast, rfl, rfl, ?_, ?_, ?_⟩
    · -- indexComplete
      intro j hj
      simp only [List.mem_range] at hj
      rw [hLen] at hj
      have hji : j ≠ i := by omega
      cases hcj : (swapRemove s.chunks i)[j]? with
      | none =>
          rw [htransfer j hji hj] at hcj
          have hjL : j < s.chunks.length := by omega
          rw [List.getElem?_eq_getElem hjL] at hcj
          cases hcj
      | some c₂ =>
          have hcj₂ : s.chunks[j]? = some c₂ := by
            rw [← htransfer j hji hj]; exact hcj
          simp only [hcj, Option.map_some', Option.some.injEq]
          have hkey : c₂.chunk_key ≠ c.chunk_key := by
            intro hk
            exact hji (chunks_pos_inj hc hcj₂ hci hk)
          rw [lookupKey_eraseKey_ne _ hkey]
          exact indexComplete_lookup hc hcj₂
    · -- indexSound
      intro p hp
      rcases eraseKey_mem.mp hp with ⟨hpmem, hpk⟩
      rcases indexSound_chunk hs hpmem with ⟨c₃, hc₃, hk₃⟩
      have hp2 : p.2 ≠ i := by
        intro he
        rw [he, hci] at hc₃
        injection hc₃ with h4
        rw [← h4] at hk₃
        exact hpk hk₃.symm
      have hp2lt : p.2 < s.chunks.length := (List.getElem?_eq_some.mp hc₃).1
      have hp2lt₂ : p.2 < s.chunks.length - 1 := by omega
      rw [htransfer p.2 hp2 hp2lt₂, hc₃]
      simp [hk₃]
    · -- indexKeysNodup
      exact eraseKey_keysNodup hn c.chunk_key
  · have hmid : i < s.chunks.length - 1 := by omega
    have hclNe : (s.chunks.getLast hne).chunk_key ≠ c.chunk_key := by
      intro hk
      have := chunks_pos_inj hc hclElem hci hk
      omega
    refine ⟨_, cleanStep_empty_mid hne hci hemp hmid, rfl, rfl, ?_, ?_, ?_⟩
    · -- indexComplete
      intro j hj
      simp only [List.mem_range] at hj
      rw [hLen] at hj
      by_cases hji : j = i
      · subst hji
        have hcj : (swapRemove s.chunks j)[j]? = some (s.chunks.getLast hne) := by
          rw [swapRemove_getElem? hne j hj, if_pos rfl]
        simp only [hcj, Option.map_some', Option.some.injEq]
        exact lookupKey_insertKey_self _ _ _
      · cases hcj : (swapRemove s.chunks i)[j]? with
        | none =>
            rw [htransfer j hji hj] at hcj
            have hjL : j < s.chunks.length := by omega
            rw [List.getElem?_eq_getElem hjL] at hcj
            cases hcj
        | some c₂ =>
            have hcj₂ : s.chunks[j]? = some c₂ := by
              rw [← htransfer j hji hj]; exact hcj
            simp only [hcj, Option.map_some', Option.some.injEq]
            have hkeyc : c₂.chunk_key ≠ c.chunk_key := by
              intro hk
              exact hji (chunks_pos_inj hc hcj₂ hci hk)
            have hkeycl : c₂.chunk_key ≠ (s.chunks.getLast hne).chunk_key := by
              intro hk
              have := chunks_pos_inj hc hcj₂ hclElem hk
              omega
            rw [lookupKey_insertKey_ne _ _ hkeycl, lookupKey_eraseKey_ne _ hkeyc]
            exact indexComplete_lookup hc hcj₂
    · -- indexSound
      intro p hp
      rcases insertKey_mem.mp hp with hnew | ⟨hold, hpcl⟩
      · subst hnew
        have hcj : (swapRemove s.chunks i)[i]? = some (s.chunks.getLast hne) := by
          rw [swapRemove_getElem? hne i hmid, if_pos rfl]
        rw [hcj]
        simp
      · rcases eraseKey_mem.mp hold with ⟨hpmem, hpk⟩
        rcases indexSound_chunk hs hpmem with ⟨c₃, hc₃, hk₃⟩
        have hp2 : p.2 ≠ i := by
          intro he
          rw [he, hci] at hc₃
          injection hc₃ with h4
          rw [← h4] at hk₃
          exact hpk hk₃.symm
        have hp2last : p.2 ≠ s.chunks.length - 1 := by
          intro he
          rw [he, hclElem] at hc₃
          injection hc₃ with h4
          rw [← h4] at hk₃
          exact hpcl hk₃.symm
        have hp2lt : p.2 < s.chunks.length := (List.getElem?_eq_some.mp hc₃).1
        have hp2lt₂ : p.2 < s.chunks.length - 1 := by omega
        rw [htransfer p.2 hp2 hp2lt₂, hc₃]
        simp [hk₃]
    · -- indexKeysNodup
      exact insertKey_keysNodup (eraseKey_keysNodup hn c.chunk_key) _ _

end CleanStepLemmas

section CleanLemmas

variable {κ ι ε : Type} [DecidableEq κ] [DecidableEq ι] [DecidableEq ε]

theorem nonempty_filter_eq_self {st : Storage κ ε}
    (hcov : ∀ (i : Nat) (c : ChunkStorage κ ε),
      st.chunks[i]? = some c → c.records = [] → False) :
    st.chunks.filter (fun c => !c.records.isEmpty) = st.chunks := by
  apply List.filter_eq_self.mpr
  intro c hcmem
  rcases List.mem_iff_getElem?.mp hcmem with ⟨n, hn₂⟩
  cases hE : c.records.isEmpty
  · simp
  · exact absurd (hcov n c hn₂ (List.isEmpty_iff.mp hE)) (fun hf => hf)

theorem cleanGo_spec :
    ∀ (d : List Nat) (st st₂ : Storage κ ε),
    d.Pairwise (· ≥ ·) →
    (∀ (i : Nat) (c : ChunkStorage κ ε),
       st.chunks[i]? = some c → c.records = [] → i ∈ d) →
    indexComplete st → indexSound st → indexKeysNodup st →
    cleanGo d st = some st₂ →
    st₂.chunks.Perm (st.chunks.filter (fun c => !c.records.isEmpty)) ∧
    indexComplete st₂ ∧ indexSound st₂ ∧ indexKeysNodup st₂ ∧
    st₂.dirty = st.dirty := by
  intro d
  induction d with
  | nil =>
      intro st st₂ _ hcov hc hs hn h
      have hst : st = st₂ := by
        unfold cleanGo at h
        injection h
      subst hst
      rw [nonempty_filter_eq_self
        (fun i c hci hempc => List.not_mem_nil i (hcov i c hci hempc))]
      exact ⟨List.Perm.refl _, hc, hs, hn, rfl⟩
  | cons i rest ih =>
      intro st st₂ hsort hcov hc hs hn h
      unfold cleanGo at h
      cases hstep : cleanStep st i with
      | none => rw [hstep] at h; simp at h
      | some s₁ =>
          rw [hstep] at h
          simp only [Option.some_bind] at h
          cases hci : st.chunks[i]? with
          | none => rw [cleanStep_oob hci] at hstep; cases hstep
          | some c =>
              have hiL : i < st.chunks.length := (List.getElem?_eq_some.mp hci).1
              have hcieq : st.chunks[i] = c := (List.getElem?_eq_some.mp hci).2
              by_cases hemp : c.records = []
              · -- the queued chunk is empty and is removed
                rcases cleanStep_empty_bundle hci hemp hc hs hn with
                  ⟨s₃, hstep₂, hdirty₁, hchunks₁, hc₁, hs₁, hn₁⟩
                rw [hstep₂] at hstep
                injection hstep with hstep₃
                subst hstep₃
                have hne : st.chunks ≠ [] := by
                  intro hnil
                  rw [hnil] at hci
                  simp at hci
                have hL₁ : s₃.chunks.length = st.chunks.length - 1 := by
                  rw [hchunks₁]
                  exact swapRemove_length hne i
                have hcov₁ : ∀ (j : Nat) (c₂ : ChunkStorage κ ε),
                    s₃.chunks[j]? = some c₂ → c₂.records = [] → j ∈ rest := by
                  intro j c₂ hj hempc₂
                  have hjlt : j < s₃.chunks.length := (List.getElem?_eq_some.mp hj).1
                  have hjlt₂ : j < st.chunks.length - 1 := by omega
                  by_cases hji : j = i
                  · subst hji
                    have hgl : s₃.chunks[j]? = some (st.chunks.getLast hne) := by
                      rw [hchunks₁, swapRemove_getElem? hne j hjlt₂, if_pos rfl]
                    rw [hgl] at hj
                    injection hj with hj₂
                    have hglElem : st.chunks[st.chunks.length - 1]? =
                        some (st.chunks.getLast hne) := getElem?_getLast hne
                    have hlmem : st.chunks.length - 1 ∈ j :: rest := by
                      apply hcov _ _ hglElem
                      rw [hj₂]
                      exact hempc₂
                    rcases List.mem_cons.mp hlmem with hx | hx
                    · omega
                    · have := (List.pairwise_cons.mp hsort).1 _ hx
                      omega
                  · have hj₃ : st.chunks[j]? = some c₂ := by
                      rw [hchunks₁] at hj
                      rw [← hj]
                      symm
                      rw [swapRemove_getElem? hne i hjlt₂,
                        if_neg (fun he => hji he.symm)]
                      rw [List.getElem?_eq_getElem
                        (Nat.lt_of_lt_of_le hjlt₂ (Nat.sub_le _ _))]
                      rw [List.get_eq_getElem]
                    have hmem₂ := hcov j c₂ hj₃ hempc₂
                    rcases List.mem_cons.mp hmem₂ with hx | hx
                    · exact absurd hx hji
                    · exact hx
                rcases ih s₃ st₂ (List.pairwise_cons.mp hsort).2 hcov₁ hc₁ hs₁
                  hn₁ h with ⟨hperm, hc₂, hs₂, hn₂, hd₂⟩
                refine ⟨?_, hc₂, hs₂, hn₂, by rw [hd₂, hdirty₁]⟩
                have hp₁ : s₃.chunks.Perm (st.chunks.eraseIdx i) := by
                  rw [hchunks₁]
                  exact swapRemove_perm hiL
                have hp₂ : st.chunks.Perm (c :: st.chunks.eraseIdx i) := by
                  have h5 := eraseIdx_cons_perm st.chunks hiL
                  rw [hcieq] at h5
                  exact h5.symm
                have hfilter : (st.chunks.filter (fun x => !x.records.isEmpty)).Perm
                    ((st.chunks.eraseIdx i).filter (fun x => !x.records.isEmpty)) := by
                  have h3 := List.Perm.filter (fun x => !x.records.isEmpty) hp₂
                  rw [List.filter_cons_of_neg (by simp [hemp])] at h3
                  exact h3
                exact hperm.trans
                  ((List.Perm.filter _ hp₁).trans hfilter.symm)
              · -- the queued chunk is not empty and is skipped
                rw [cleanStep_nonempty hci hemp] at hstep
                injection hstep with hstep₃
                subst hstep₃
                apply ih st st₂ (List.pairwise_cons.mp hsort).2 _ hc hs hn h
                intro j c₂ hj hempc₂
                rcases List.mem_cons.mp (hcov j c₂ hj hempc₂) with hx | hx
                · subst hx
                  rw [hci] at hj
                  injection hj with hj₂
                  rw [← hj₂] at hempc₂
                  exact absurd hempc₂ hemp
                · exact hx

theorem cleanStep_isSome_of_lt {st : Storage κ ε} {i : Nat}
    (hiL : i < st.chunks.length) :
    ∃ s₁ : Storage κ ε, cleanStep st i = some s₁ ∧
      (s₁ = st ∨ s₁.chunks = swapRemove st.chunks i) := by
  have hne : st.chunks ≠ [] :=
    List.ne_nil_of_length_pos (Nat.lt_of_le_of_lt (Nat.zero_le _) hiL)
  have hci : st.chunks[i]? = some (st.chunks[i]) :=
    List.getElem?_eq_getElem hiL
  by_cases hemp : (st.chunks[i]).records = []
  · by_cases hlast : i = st.chunks.length - 1
    · exact ⟨_, cleanStep_empty_last hci hemp hlast, Or.inr rfl⟩
    · have hmid : i < st.chunks.length - 1 := by omega
      exact ⟨_, cleanStep_empty_mid hne hci hemp hmid, Or.inr rfl⟩
  · exact ⟨_, cleanStep_nonempty hci hemp, Or.inl rfl⟩

theorem cleanGo_isSome :
    ∀ (d : List Nat) (st : Storage κ ε),
    d.Pairwise (· > ·) →
    (∀ j ∈ d, j < st.chunks.length) →
    (cleanGo d st).isSome := by
  intro d
  induction d with
  | nil => intro st _ _; rfl
  | cons i rest ih =>
      intro st hsort hbound
      have hiL : i < st.chunks.length := hbound i (by simp)
      rcases cleanStep_isSome_of_lt hiL with ⟨s₁, hstep, hcase⟩
      unfold cleanGo
      rw [hstep]
      simp only [Option.some_bind]
      apply ih s₁ (List.pairwise_cons.mp hsort).2
      intro j hj
      have hji : i > j := (List.pairwise_cons.mp hsort).1 j hj
      rcases hcase with hx | hx
      · rw [hx]
        exact Nat.lt_trans hji hiL
      · rw [hx]
        have hne : st.chunks ≠ [] :=
          List.ne_nil_of_length_pos (Nat.lt_of_le_of_lt (Nat.zero_le _) hiL)
        rw [swapRemove_length hne]
        omega

theorem dirty_mem_sorted_reverse {s : Storage κ ε} {j : Nat} :
    j ∈ (List.insertionSort (· ≤ ·) s.dirty).reverse ↔ j ∈ s.dirty := by
  rw [List.mem_reverse]
  exact (List.perm_insertionSort _ _).mem_iff

theorem clean_of_dirty_nil {s : Storage κ ε} (h : s.dirty = []) :
    s.clean = some s := by
  unfold Storage.clean
  rw [h]
  rfl

theorem clean_spec {s s₂ : Storage κ ε}
    (hc : indexComplete s) (hs : indexSound s) (hn : indexKeysNodup s)
    (hcov : emptiesQueued s)
    (h : s.clean = some s₂) :
    s₂.dirty = [] ∧
    s₂.chunks.Perm (s.chunks.filter (fun c => !c.records.isEmpty)) ∧
    indexComplete s₂ ∧ indexSound s₂ ∧ indexKeysNodup s₂ ∧
    (∀ c ∈ s₂.chunks, c.records ≠ []) ∧
    (∀ c ∈ s₂.chunks, c ∈ s.chunks) := by
  have hcov₂ : ∀ (i : Nat) (c : ChunkStorage κ ε),
      s.chunks[i]? = some c → c.records = [] → i ∈ s.dirty := by
    intro i c hci hempc
    exact hcov (i, c) (List.mk_mem_enum_iff_getElem?.mpr hci) hempc
  unfold Storage.clean at h
  by_cases hde : s.dirty.isEmpty
  · rw [if_pos hde] at h
    injection h with h₂
    subst h₂
    have hnil : s.dirty = [] := List.isEmpty_iff.mp hde
    have hnoempty : ∀ (i : Nat) (c : ChunkStorage κ ε),
        s.chunks[i]? = some c → c.records = [] → False := by
      intro i c hci hempc
      have h6 := hcov₂ i c hci hempc
      rw [hnil] at h6
      exact List.not_mem_nil i h6
    refine ⟨hnil, ?_, hc, hs, hn, ?_, fun c hcm => hcm⟩
    · rw [nonempty_filter_eq_self hnoempty]
    · intro c hcm hempc
      rcases List.mem_iff_getElem?.mp hcm with ⟨n, hn₂⟩
      exact hnoempty n c hn₂ hempc
  · rw [if_neg hde] at h
    cases hgo : cleanGo ((List.insertionSort (· ≤ ·) s.dirty).reverse) s with
    | none => rw [hgo] at h; simp at h
    | some st =>
        rw [hgo] at h
        simp only [Option.map_some'] at h
        have hsort : ((List.insertionSort (· ≤ ·) s.dirty).reverse).Pairwise
            (· ≥ ·) := by
          rw [List.pairwise_reverse]
          exact List.Pairwise.imp (fun hab => hab)
            (List.sorted_insertionSort (· ≤ ·) s.dirty)
        have hcovD : ∀ (i : Nat) (c : ChunkStorage κ ε),
            s.chunks[i]? = some c → c.records = [] →
            i ∈ (List.insertionSort (· ≤ ·) s.dirty).reverse := by
          intro i c hci hempc
          exact dirty_mem_sorted_reverse.mpr (hcov₂ i c hci hempc)
        rcases cleanGo_spec _ s st hsort hcovD hc hs hn hgo with
          ⟨hperm, hc₂, hs₂, hn₂, _⟩
        injection h with h₂
        subst h₂
        refine ⟨rfl, hperm, hc₂, hs₂, hn₂, ?_, ?_⟩
        · intro c hcm hempc
          have h7 := List.mem_filter.mp (hperm.mem_iff.mp hcm)
          rw [hempc] at h7
          simp at h7
        · intro c hcm
          exact List.mem_of_mem_filter (hperm.mem_iff.mp hcm)

theorem clean_isSome {s : Storage κ ε} (hd : dirtyOk s) :
    (s.clean).isSome := by
  unfold Storage.clean
  by_cases hde : s.dirty.isEmpty
  · rw [if_pos hde]; rfl
  · rw [if_neg hde]
    have hsorted : ((List.insertionSort (· ≤ ·) s.dirty).reverse).Pairwise
        (· > ·) := by
      rw [List.pairwise_reverse]
      apply List.Pairwise.imp (fun hab => hab)
      apply List.Sorted.lt_of_le (List.sorted_insertionSort (· ≤ ·) s.dirty)
      exact ((List.perm_insertionSort (· ≤ ·) s.dirty).nodup_iff).mpr hd.1
    have hbound : ∀ j ∈ (List.insertionSort (· ≤ ·) s.dirty).reverse,
        j < s.chunks.length := by
      intro j hj
      exact hd.2 j (dirty_mem_sorted_reverse.mp hj)
    have h8 := cleanGo_isSome _ s hsorted hbound
    cases hgo : cleanGo ((List.insertionSort (· ≤ ·) s.dirty).reverse) s with
    | none => rw [hgo] at h8; cases h8
    | some st => rfl

end CleanLemmas

section WFLemmas

variable {κ ι ε : Type} [DecidableEq κ] [DecidableEq ι] [DecidableEq ε]

theorem nodup_of_getElem?_inj {l : List ε}
    (h : ∀ i j : Nat, ∀ a : ε, l[i]? = some a → l[j]? = some a → i = j) :
    l.Nodup := by
  rw [List.nodup_iff_injective_get]
  intro a b hab
  have h1 : l[a.1]? = some (l.get a) := by rw [List.getElem?_eq_getElem a.2]; rfl
  have h2 : l[b.1]? = some (l.get b) := by rw [List.getElem?_eq_getElem b.2]; rfl
  rw [hab] at h1
  exact Fin.ext (h a.1 b.1 _ h1 h2)

theorem chunks_nodup {s : Storage κ ε} (hc : indexComplete s) :
    s.chunks.Nodup := by
  apply nodup_of_getElem?_inj
  intro i j a hi hj
  exact chunks_pos_inj hc hi hj rfl

theorem chunk_keys_nodup {s : Storage κ ε} (hc : indexComplete s) :
    (s.chunks.map (fun c => c.chunk_key)).Nodup := by
  apply List.Nodup.map_on _ (chunks_nodup hc)
  intro x hx y hy hxy
  rcases List.mem_iff_getElem?.mp hx with ⟨i, hi⟩
  rcases List.mem_iff_getElem?.mp hy with ⟨j, hj⟩
  have hij : i = j := chunks_pos_inj hc hi hj hxy
  rw [hij, hj] at hi
  injection hi with hv
  exact hv.symm

theorem storageWF_clean {R : Record κ ι ε} {s : Storage κ ε}
    (hw : StorageWF R s) :
    ∃ s₂ : Storage κ ε, s.clean = some s₂ ∧
      s₂.dirty = [] ∧
      s₂.chunks.Perm (s.chunks.filter (fun c => !c.records.isEmpty)) ∧
      StorageWF R s₂ ∧
      (∀ c ∈ s₂.chunks, c.records ≠ []) ∧
      (∀ c ∈ s₂.chunks, c ∈ s.chunks) := by
  rcases hw with ⟨hc, hs, hn, hh, hi, he, hd⟩
  have hsome := clean_isSome hd
  cases hcl : s.clean with
  | none => rw [hcl] at hsome; cases hsome
  | some s₂ =>
      rcases clean_spec hc hs hn he hcl with
        ⟨hd₂, hperm, hc₂, hs₂, hn₂, hne₂, hmem₂⟩
      refine ⟨s₂, rfl, hd₂, hperm, ⟨hc₂, hs₂, hn₂, ?_, ?_, ?_, ?_⟩, hne₂, hmem₂⟩
      · exact fun c hcm => hh c (hmem₂ c hcm)
      · exact fun c hcm => hi c (hmem₂ c hcm)
      · intro p hp hempty
        rcases List.mk_mem_enum_iff_getElem?.mp hp with hget
        have hpm : p.2 ∈ s₂.chunks := by
          rw [List.mem_iff_getElem?]
          exact ⟨p.1, hget⟩
        exact absurd hempty (hne₂ p.2 hpm)
      · constructor
        · rw [hd₂]
          exact List.nodup_nil
        · intro i₂ hi₂
          rw [hd₂] at hi₂
          exact absurd hi₂ (List.not_mem_nil i₂)

theorem flatten_map_filter_nonempty (l : List (ChunkStorage κ ε)) :
    (((l.filter (fun c => !c.records.isEmpty)).map (fun c => c.records)).flatten)
      = ((l.map (fun c => c.records)).flatten) := by
  induction l with
  | nil => rfl
  | cons c t ih =>
      cases hE : c.records.isEmpty
      · have htrue : (!c.records.isEmpty) = true := by rw [hE]; rfl
        rw [List.filter_cons, if_pos htrue, List.map_cons, List.map_cons,
          List.flatten_cons, List.flatten_cons, ih]
      · have hfalse : ¬((!c.records.isEmpty) = true) := by rw [hE]; simp
        have hrec : c.records = [] := List.isEmpty_iff.mp hE
        rw [List.filter_cons, if_neg hfalse, List.map_cons, List.flatten_cons,
          hrec, List.nil_append, ih]

theorem iter_perm_of_chunks_perm {s t : Storage κ ε}
    (h : s.chunks.Perm t.chunks) : (Storage.iter s).Perm (Storage.iter t) := by
  unfold Storage.iter
  exact (h.map (fun c => c.records)).flatten

theorem iter_clean_perm {R : Record κ ι ε} {s s₂ : Storage κ ε}
    (hw : StorageWF R s) (h : s.clean = some s₂) :
    (Storage.iter s₂).Perm (Storage.iter s) := by
  rcases storageWF_clean hw with ⟨s₃, hcl, _, hperm, _, _, _⟩
  rw [h] at hcl
  injection hcl with he
  subst he
  unfold Storage.iter
  have h1 := (hperm.map (fun c => c.records)).flatten
  rw [flatten_map_filter_nonempty] at h1
  exact h1

theorem chunk_keys_mem {s : Storage κ ε} {k : κ} :
    k ∈ Storage.chunk_keys s ↔ ∃ c ∈ s.chunks, c.chunk_key = k := by
  unfold Storage.chunk_keys
  simp [List.mem_map]

end WFLemmas

section QueryLemmas

variable {κ ι ε : Type} [DecidableEq κ] [DecidableEq ι] [DecidableEq ε]

theorem range_map_elim (l : List (ChunkStorage κ ε))
    (f : ChunkStorage κ ε → List ε) :
    (List.range l.length).map (fun i => (l[i]?).elim [] f) = l.map f := by
  induction l with
  | nil => rfl
  | cons a t ih =>
      rw [List.length_cons, List.range_succ_eq_map, List.map_cons,
        List.map_map]
      rw [List.map_cons]
      congr 1
      · simp
      · rw [← ih]
        apply List.map_congr_left
        intro i _
        simp [Function.comp]

theorem filterMap_range_getElem? (l : List ε) :
    (List.range l.length).filterMap (fun i => l[i]?) = l := by
  induction l with
  | nil => rfl
  | cons a t ih =>
      rw [List.length_cons, List.range_succ_eq_map, List.filterMap_cons]
      simp only [List.getElem?_cons_zero]
      rw [List.filterMap_map]
      have hcongr : (List.range t.length).filterMap
          ((fun i => (a :: t)[i]?) ∘ Nat.succ) =
          (List.range t.length).filterMap (fun i => t[i]?) := by
        apply List.filterMap_congr
        intro i _
        simp [Function.comp]
      rw [hcongr, ih]

theorem queryQ_everything (c : ChunkStorage κ ε) :
    ChunkStorage.queryQ (everything : Query κ ε) c = c.records := by
  unfold ChunkStorage.queryQ everything
  exact filterMap_range_getElem? c.records

theorem query_everything_eq_iter (s : Storage κ ε) :
    Storage.query s everything = Storage.iter s := by
  unfold Storage.query Storage.iter
  have h1 : (everything : Query κ ε).chunkIdxs s =
      List.range s.chunks.length := rfl
  rw [h1, range_map_elim s.chunks]
  congr 1
  apply List.map_congr_left
  intro c _
  exact queryQ_everything c

theorem iter_pairs_nodup {R : Record κ ι ε} {s : Storage κ ε}
    (hw : StorageWF R s) :
    ((Storage.iter s).map (fun e => (R.chunk_key e, R.item_key e))).Nodup := by
  rcases hw with ⟨hc, _, _, hh, hi, _, _⟩
  unfold Storage.iter
  rw [List.map_flatten, List.map_map, List.nodup_flatten]
  constructor
  · intro l hl
    rcases List.mem_map.mp hl with ⟨c, hcm, hle⟩
    subst hle
    have h2 : ((c.records.map (fun e => (R.chunk_key e, R.item_key e))).map
        Prod.snd).Nodup := by
      rw [List.map_map]
      exact hi c hcm
    exact List.Nodup.of_map _ h2
  · have hkeys := chunk_keys_nodup hc
    have hpair : s.chunks.Pairwise (fun a b => a.chunk_key ≠ b.chunk_key) :=
      List.pairwise_map.mp hkeys
    rw [List.pairwise_map]
    apply List.Pairwise.imp_of_mem _ hpair
    intro a b ham hbm hab
    intro x hxa hxb
    rcases List.mem_map.mp hxa with ⟨e₁, he₁, hx₁⟩
    rcases List.mem_map.mp hxb with ⟨e₂, he₂, hx₂⟩
    apply hab
    have h₁ : x.1 = a.chunk_key := by
      rw [← hx₁]
      exact hh a ham e₁ he₁
    have h₂ : x.1 = b.chunk_key := by
      rw [← hx₂]
      exact hh b hbm e₂ he₂
    rw [← h₁, ← h₂]

theorem iter_nodup {R : Record κ ι ε} {s : Storage κ ε}
    (hw : StorageWF R s) : (Storage.iter s).Nodup :=
  List.Nodup.of_map _ (iter_pairs_nodup hw)

end QueryLemmas

section ValidateLemmas

variable {κ ι ε : Type} [DecidableEq κ] [DecidableEq ι] [DecidableEq ε]

theorem storageChecks_of_wf {R : Record κ ι ε} {s : Storage κ ε}
    (hw : StorageWF R s) (hne : ∀ c ∈ s.chunks, c.records ≠ []) :
    storageChecks R s := by
  rcases hw with ⟨hc, hs, _, hh, hi, _, _⟩
  refine ⟨hc, ?_, ?_⟩
  · intro p hp
    rcases indexSound_chunk hs hp with ⟨c, hcp, hk⟩
    have hcm : c ∈ s.chunks := by
      rw [List.mem_iff_getElem?]
      exact ⟨p.2, hcp⟩
    constructor
    · rw [hcp]
      simp [hk]
    · rw [hcp]
      simp only [Option.map_some', Option.some.injEq]
      intro hzero
      exact hne c hcm (List.length_eq_zero.mp hzero)
  · intro c hcm
    exact ⟨hh c hcm, hi c hcm⟩

theorem validate_of_wf {R : Record κ ι ε} {s : Storage κ ε}
    (hw : StorageWF R s) :
    ∃ s₂ : Storage κ ε, Storage.validate R s = some s₂ ∧
      s₂.chunks.Perm (s.chunks.filter (fun c => !c.records.isEmpty)) ∧
      StorageWF R s₂ ∧ (∀ c ∈ s₂.chunks, c ∈ s.chunks) := by
  rcases storageWF_clean hw with ⟨s₂, hcl, _, hperm, hwf₂, hne₂, hmem₂⟩
  refine ⟨s₂, ?_, hperm, hwf₂, hmem₂⟩
  unfold Storage.validate
  rw [hcl]
  simp only [Option.some_bind]
  rw [if_pos (storageChecks_of_wf hwf₂ hne₂)]

end ValidateLemmas

/-- C5: the compaction pass clean processes the queued emptied positions in
descending position order with swap-to-end removal (the mechanism embedded in
Storage.clean, cleanGo and cleanStep); on every well-formed storage the pass
succeeds, the surviving chunk collection is a permutation of exactly the
chunks that are not empty at that moment (so only actually-empty chunks are
removed), the surviving index maps every remaining chunk key to its current
position, and no queued empty chunk remains in the collection. -/
theorem C5_clean_compaction {κ ι ε : Type} [DecidableEq κ] [DecidableEq ι]
    [DecidableEq ε] (R : Record κ ι ε) (s : Storage κ ε)
    (hw : StorageWF R s) :
    ∃ s₂ : Storage κ ε, s.clean = some s₂ ∧
      s₂.chunks.Perm (s.chunks.filter (fun c => !c.records.isEmpty)) ∧
      indexComplete s₂ ∧ indexSound s₂ ∧
      (∀ c ∈ s₂.chunks, c.records ≠ []) ∧ s₂.dirty = [] := by
  rcases storageWF_clean hw with ⟨s₂, h1, h2, h3, hwf, h5, _⟩
  exact ⟨s₂, h1, h3, hwf.1, hwf.2.1, h5, h2⟩

/-- Witness for C5 at a concrete storage with a pending empty chunk. -/
theorem C5_clean_compaction_witness :
    ∃ s₂ : Storage Nat (Nat × Nat × Nat), samplePending.clean = some s₂ ∧
      s₂.chunks.Perm (samplePending.chunks.filter (fun c => !c.records.isEmpty)) ∧
      indexComplete s₂ ∧ indexSound s₂ ∧
      (∀ c ∈ s₂.chunks, c.records ≠ []) ∧ s₂.dirty = [] :=
  C5_clean_compaction tripleRecord samplePending (by decide)

/-- C6: querying with Everything returns exactly the sequence iter returns,
so every stored record is visited exactly once, with no duplicate and no
omission; on a well-formed storage the visited records are moreover pairwise
distinct as values. -/
theorem C6_query_everything {κ ι ε : Type} [DecidableEq κ] [DecidableEq ι]
    [DecidableEq ε] (R : Record κ ι ε) (s : Storage κ ε) :
    Storage.query s everything = Storage.iter s ∧
    (StorageWF R s → (Storage.iter s).Nodup) :=
  ⟨query_everything_eq_iter s, fun hw => iter_nodup hw⟩

/-- Witness for C6 at a concrete storage with three records. -/
theorem C6_query_everything_witness :
    Storage.query sampleSettled everything = Storage.iter sampleSettled ∧
    (Storage.iter sampleSettled).Nodup :=
  ⟨(C6_query_everything tripleRecord sampleSettled).1,
   (C6_query_everything tripleRecord sampleSettled).2 (by decide)⟩

/-- C7: get returns none whenever the chunk key is unknown to the index, and
none whenever the chunk key resolves to a chunk in which no record carries
the requested item key. The source signature takes a shared reference, so
get cannot mutate the storage: accordingly the embedded get consumes the
storage without producing one, performing no chunk creation, no dirtying and
no compaction. -/
theorem C7_get_absence {κ ι ε : Type} [DecidableEq κ] [DecidableEq ι]
    [DecidableEq ε] (R : Record κ ι ε) (s : Storage κ ε) (ck : κ) (ik : ι) :
    (lookupKey s.index ck = none → Storage.get R s ck ik = none) ∧
    (∀ idx : Nat, lookupKey s.index ck = some idx →
      ∀ c : ChunkStorage κ ε, s.chunks[idx]? = some c →
      (∀ e ∈ c.records, R.item_key e ≠ ik) →
      Storage.get R s ck ik = none) := by
  constructor
  · intro h
    unfold Storage.get
    rw [h]
    rfl
  · intro idx hidx c hc hnone
    unfold Storage.get
    rw [hidx]
    simp only [Option.some_bind]
    rw [hc]
    simp only [Option.some_bind]
    unfold ChunkStorage.get
    rw [List.find?_eq_none.mpr]
    intro e he
    simpa using hnone e he

/-- Witness for C7: an unknown chunk key and an unknown item key under a
known chunk key both resolve to none. -/
theorem C7_get_absence_witness :
    Storage.get tripleRecord sampleSettled 7 1 = none ∧
    Storage.get tripleRecord sampleSettled 1 9 = none :=
  ⟨(C7_get_absence tripleRecord sampleSettled 7 1).1 (by decide),
   (C7_get_absence tripleRecord sampleSettled 1 9).2 0 (by decide)
     ⟨1, [(1, 1, 10), (1, 2, 11)]⟩ (by decide) (by decide)⟩

/-- C1: compaction correctness fails in the source for remove_chunk on a
chunk that is not at the last position. The storage below is reachable by
two add calls and is well-formed; remove_chunk of chunk key 1 (position 0 of
2) swap-removes the chunk but, unlike clean, never re-indexes the chunk that
lands in the vacated position, leaving the index entry of chunk key 2
pointing at the now out-of-range position 1. The subsequent validate, which
the claim requires to succeed, fails on its first assertion. The chunk key
itself does disappear from chunk_keys. -/
theorem C1_remove_chunk_bug :
    ∃ s₁ s₂ : Storage Nat (Nat × Nat × Nat),
      Storage.add tripleRecord Storage.new (1, 1, 10) = some s₁ ∧
      Storage.add tripleRecord s₁ (2, 2, 20) = some s₂ ∧
      StorageWF tripleRecord s₂ ∧
      Storage.remove_chunk s₂ 1 =
        some (⟨[⟨2, [(2, 2, 20)]⟩], [], [(2, 1)]⟩, some [(1, 1, 10)]) ∧
      Storage.validate tripleRecord
        (⟨[⟨2, [(2, 2, 20)]⟩], [], [(2, 1)]⟩ : Storage Nat (Nat × Nat × Nat))
        = none ∧
      1 ∉ Storage.chunk_keys
        (⟨[⟨2, [(2, 2, 20)]⟩], [], [(2, 1)]⟩ : Storage Nat (Nat × Nat × Nat)) := by
  refine ⟨⟨[⟨1, [(1, 1, 10)]⟩], [], [(1, 0)]⟩,
    ⟨[⟨1, [(1, 1, 10)]⟩, ⟨2, [(2, 2, 20)]⟩], [], [(2, 1), (1, 0)]⟩,
    ?_, ?_, ?_, ?_, ?_, ?_⟩ <;> decide

/-- C9 counterexample: on a storage with an empty chunk of key 0 pending
compaction (exactly the state entry leaves behind on a fresh storage),
remove_chunk of the absent key 1 returns the none payload, yet the set of
chunk keys changes: key 0 is gone afterwards, because remove_chunk compacts
first. The claim as stated, that the set of chunk keys is unchanged, is
therefore false. -/
theorem C9_remove_chunk_absent_cex :
    ∃ s₁ : Storage Nat (Nat × Nat × Nat),
      Storage.entry Storage.new 0 = some s₁ ∧
      Storage.remove_chunk s₁ 1 = some (⟨[], [], []⟩, none) ∧
      0 ∈ Storage.chunk_keys s₁ ∧
      Storage.chunk_keys (⟨[], [], []⟩ : Storage Nat (Nat × Nat × Nat)) = [] := by
  refine ⟨⟨[⟨0, []⟩], [0], [(0, 0)]⟩, ?_, ?_, ?_, ?_⟩ <;> decide

/-- C9 amended: on a well-formed storage, remove_chunk of a chunk key that
is not currently listed by chunk_keys returns the none payload and removes
no records: the stored record multiset is unchanged, and the chunk keys
after the call are exactly the keys of the chunks that were non-empty, the
compaction that runs first being the only change. -/
theorem C9_remove_chunk_absent {κ ι ε : Type} [DecidableEq κ] [DecidableEq ι]
    [DecidableEq ε] (R : Record κ ι ε) (s : Storage κ ε) (k : κ)
    (hw : StorageWF R s) (habs : k ∉ Storage.chunk_keys s) :
    ∃ s₂ : Storage κ ε, Storage.remove_chunk s k = some (s₂, none) ∧
      (Storage.iter s₂).Perm (Storage.iter s) ∧
      (∀ k₂ : κ, k₂ ∈ Storage.chunk_keys s₂ ↔
        ∃ c ∈ s.chunks, c.records ≠ [] ∧ c.chunk_key = k₂) := by
  rcases storageWF_clean hw with ⟨s₂, hcl, _, hperm, hwf₂, hne₂, hmem₂⟩
  have hlook : lookupKey s₂.index k = none := by
    apply lookupKey_none_of_no_chunk hwf₂.2.1
    intro c hcm hck
    exact habs (chunk_keys_mem.mpr ⟨c, hmem₂ c hcm, hck⟩)
  refine ⟨s₂, ?_, ?_, ?_⟩
  · unfold Storage.remove_chunk
    rw [hcl]
    simp only [Option.some_bind]
    rw [hlook]
  · have h1 := (hperm.map (fun c => c.records)).flatten
    rw [flatten_map_filter_nonempty] at h1
    exact h1
  · intro k₂
    rw [chunk_keys_mem]
    constructor
    · rintro ⟨c, hcm, hck⟩
      exact ⟨c, hmem₂ c hcm, hne₂ c hcm, hck⟩
    · rintro ⟨c, hcm, hcne, hck⟩
      refine ⟨c, ?_, hck⟩
      rw [hperm.mem_iff, List.mem_filter]
      refine ⟨hcm, ?_⟩
      cases hE : c.records.isEmpty
      · rfl
      · exact absurd (List.isEmpty_iff.mp hE) hcne

/-- Witness for the amended C9 at a concrete storage with a pending empty
chunk and an absent key. -/
theorem C9_remove_chunk_absent_witness :
    ∃ s₂ : Storage Nat (Nat × Nat × Nat),
      Storage.remove_chunk samplePending 7 = some (s₂, none) ∧
      (Storage.iter s₂).Perm (Storage.iter samplePending) ∧
      (∀ k₂ : Nat, k₂ ∈ Storage.chunk_keys s₂ ↔
        ∃ c ∈ samplePending.chunks, c.records ≠ [] ∧ c.chunk_key = k₂) :=
  C9_remove_chunk_absent tripleRecord samplePending 7 (by decide) (by decide)

section EntryLemmas

variable {κ ι ε : Type} [DecidableEq κ] [DecidableEq ι] [DecidableEq ε]

theorem entry_eq {s s₂ : Storage κ ε} (k : κ) (hcl : s.clean = some s₂)
    (hlook : lookupKey s₂.index k = none) :
    Storage.entry s k =
      some ⟨s₂.chunks ++ [⟨k, []⟩], s₂.dirty ++ [s₂.chunks.length],
        insertKey s₂.index k s₂.chunks.length⟩ := by
  unfold Storage.entry Storage.chunk Storage.chunkIdx
  rw [hcl]
  simp only [Option.map_some']
  rw [hlook]
  rfl

theorem storageWF_append_empty {R : Record κ ι ε} {s : Storage κ ε}
    (hw : StorageWF R s) (hne : ∀ c ∈ s.chunks, c.records ≠ [])
    (hd : s.dirty = []) {k : κ} (hlk : lookupKey s.index k = none) :
    StorageWF R ⟨s.chunks ++ [⟨k, []⟩], s.dirty ++ [s.chunks.length],
      insertKey s.index k s.chunks.length⟩ := by
  rcases hw with ⟨hc, hs, hn, hh, hi, _, _⟩
  have hkeyne : ∀ c ∈ s.chunks, c.chunk_key ≠ k := by
    intro c hcm hck
    rcases List.mem_iff_getElem?.mp hcm with ⟨j, hj⟩
    have := indexComplete_lookup hc hj
    rw [hck, hlk] at this
    cases this
  refine ⟨?_, ?_, ?_, ?_, ?_, ?_, ?_⟩
  · -- indexComplete
    intro i hi₂
    simp only [List.mem_range, List.length_append, List.length_cons,
      List.length_nil] at hi₂
    by_cases hlt : i < s.chunks.length
    · rw [List.getElem?_append_left hlt]
      cases hgi : s.chunks[i]? with
      | none =>
          rw [List.getElem?_eq_getElem hlt] at hgi
          cases hgi
      | some c =>
          simp only [Option.map_some', Option.some.injEq]
          have hcm : c ∈ s.chunks := by
            rw [List.mem_iff_getElem?]
            exact ⟨i, hgi⟩
          rw [lookupKey_insertKey_ne _ _ (hkeyne c hcm)]
          exact indexComplete_lookup hc hgi
    · have hieq : i = s.chunks.length := by omega
      subst hieq
      rw [List.getElem?_concat_length]
      simp only [Option.map_some', Option.some.injEq]
      exact lookupKey_insertKey_self _ _ _
  · -- indexSound
    intro p hp
    rcases insertKey_mem.mp hp with hnew | ⟨hold, hpk⟩
    · subst hnew
      rw [List.getElem?_concat_length]
      rfl
    · rcases indexSound_chunk hs hold with ⟨c, hcp, hck⟩
      have hlt : p.2 < s.chunks.length := (List.getElem?_eq_some.mp hcp).1
      rw [List.getElem?_append_left hlt, hcp]
      simp [hck]
  · -- indexKeysNodup
    exact insertKey_keysNodup hn _ _
  · -- chunksHomog
    intro c hcm e he
    rcases List.mem_append.mp hcm with hx | hx
    · exact hh c hx e he
    · rcases List.mem_singleton.mp hx with rfl
      simp at he
  · -- chunksItemsNodup
    intro c hcm
    rcases List.mem_append.mp hcm with hx | hx
    · exact hi c hx
    · rcases List.mem_singleton.mp hx with rfl
      simp
  · -- emptiesQueued
    intro p hp hempty
    have hget := List.mk_mem_enum_iff_getElem?.mp hp
    by_cases hlt : p.1 < s.chunks.length
    · rw [List.getElem?_append_left hlt] at hget
      have hcm : p.2 ∈ s.chunks := by
        rw [List.mem_iff_getElem?]
        exact ⟨p.1, hget⟩
      exact absurd hempty (hne p.2 hcm)
    · have hlen : p.1 < s.chunks.length + 1 := by
        have := (List.getElem?_eq_some.mp hget).1
        simpa using this
      have hieq : p.1 = s.chunks.length := by omega
      rw [hieq, hd]
      simp
  · -- dirtyOk
    rw [hd]
    constructor
    · simp
    · intro i hi₂
      simp only [List.nil_append, List.mem_singleton] at hi₂
      subst hi₂
      simp

end EntryLemmas

/-- C10: calling entry for an identity whose chunk key is absent creates a
new empty chunk and immediately queues its position for compaction; when the
caller inserts nothing, a chunk_keys call before any compacting operation
still lists the phantom key, while the next compaction removes the empty
chunk, and validate, which compacts first, succeeds with the chunk key no
longer listed by chunk_keys. -/
theorem C10_entry_phantom {κ ι ε : Type} [DecidableEq κ] [DecidableEq ι]
    [DecidableEq ε] (R : Record κ ι ε) (s : Storage κ ε) (k : κ)
    (hw : StorageWF R s) (habs : k ∉ Storage.chunk_keys s) :
    ∃ s₁ : Storage κ ε, Storage.entry s k = some s₁ ∧
      k ∈ Storage.chunk_keys s₁ ∧
      (∃ i : Nat, s₁.chunks[i]? = some ⟨k, []⟩ ∧ i ∈ s₁.dirty) ∧
      (∃ s₂ : Storage κ ε, s₁.clean = some s₂ ∧ k ∉ Storage.chunk_keys s₂) ∧
      (∃ s₃ : Storage κ ε, Storage.validate R s₁ = some s₃ ∧
        k ∉ Storage.chunk_keys s₃) := by
  rcases storageWF_clean hw with ⟨sc, hcl, hdc, hpermc, hwfc, hnec, hmemc⟩
  have hkeyne : ∀ c ∈ sc.chunks, c.chunk_key ≠ k := by
    intro c hcm hck
    exact habs (chunk_keys_mem.mpr ⟨c, hmemc c hcm, hck⟩)
  have hlook : lookupKey sc.index k = none :=
    lookupKey_none_of_no_chunk hwfc.2.1 hkeyne
  have hwf₁ := storageWF_append_empty hwfc hnec hdc hlook
  refine ⟨_, entry_eq k hcl hlook, ?_, ?_, ?_, ?_⟩
  · apply chunk_keys_mem.mpr
    exact ⟨⟨k, []⟩, by simp, rfl⟩
  · refine ⟨sc.chunks.length, ?_, ?_⟩
    · exact List.getElem?_concat_length _ _
    · rw [hdc]
      simp
  · rcases storageWF_clean hwf₁ with ⟨s₂, hcl₂, _, hperm₂, _, hne₂, _⟩
    refine ⟨s₂, hcl₂, ?_⟩
    intro hk
    rcases chunk_keys_mem.mp hk with ⟨c, hcm, hck⟩
    have hcm₂ := List.mem_filter.mp (hperm₂.mem_iff.mp hcm)
    rcases List.mem_append.mp hcm₂.1 with hx | hx
    · exact hkeyne c hx hck
    · rcases List.mem_singleton.mp hx with rfl
      exact hne₂ _ hcm rfl
  · rcases validate_of_wf hwf₁ with ⟨s₃, hval, hperm₃, _, _⟩
    refine ⟨s₃, hval, ?_⟩
    intro hk
    rcases chunk_keys_mem.mp hk with ⟨c, hcm, hck⟩
    have hcm₂ := List.mem_filter.mp (hperm₃.mem_iff.mp hcm)
    rcases List.mem_append.mp hcm₂.1 with hx | hx
    · exact hkeyne c hx hck
    · rcases List.mem_singleton.mp hx with rfl
      have := hcm₂.2
      simp at this

/-- Witness for C10 at a concrete storage and the absent chunk key 5. -/
theorem C10_entry_phantom_witness :
    ∃ s₁ : Storage Nat (Nat × Nat × Nat),
      Storage.entry sampleSettled 5 = some s₁ ∧
      5 ∈ Storage.chunk_keys s₁ ∧
      (∃ i : Nat, s₁.chunks[i]? = some ⟨5, []⟩ ∧ i ∈ s₁.dirty) ∧
      (∃ s₂ : Storage Nat (Nat × Nat × Nat), s₁.clean = some s₂ ∧
        5 ∉ Storage.chunk_keys s₂) ∧
      (∃ s₃ : Storage Nat (Nat × Nat × Nat),
        Storage.validate tripleRecord s₁ = some s₃ ∧
        5 ∉ Storage.chunk_keys s₃) :=
  C10_entry_phantom tripleRecord sampleSettled 5 (by decide) (by decide)

section UpsertLemmas

variable {κ ι ε : Type} [DecidableEq κ] [DecidableEq ι] [DecidableEq ε]
variable {R : Record κ ι ε}

theorem mem_upsert {e x : ε} : ∀ {l : List ε},
    x ∈ upsert R e l → x = e ∨ x ∈ l := by
  intro l
  induction l with
  | nil =>
      intro h
      unfold upsert at h
      rcases List.mem_singleton.mp h with rfl
      exact Or.inl rfl
  | cons r rs ih =>
      intro h
      unfold upsert at h
      by_cases hk : R.item_key r = R.item_key e
      · rw [if_pos hk] at h
        rcases List.mem_cons.mp h with rfl | hx
        · exact Or.inl rfl
        · exact Or.inr (List.mem_cons_of_mem r hx)
      · rw [if_neg hk] at h
        rcases List.mem_cons.mp h with rfl | hx
        · exact Or.inr (List.mem_cons_self _ _)
        · rcases ih hx with h₁ | h₂
          · exact Or.inl h₁
          · exact Or.inr (List.mem_cons_of_mem r h₂)

theorem upsert_ne_nil (e : ε) : ∀ l : List ε, upsert R e l ≠ [] := by
  intro l
  cases l with
  | nil => intro h; cases h
  | cons r rs =>
      unfold upsert
      by_cases hk : R.item_key r = R.item_key e
      · rw [if_pos hk]; intro h; cases h
      · rw [if_neg hk]; intro h; cases h

theorem upsert_perm (e : ε) : ∀ l : List ε, (l.map R.item_key).Nodup →
    (upsert R e l).Perm
      (e :: l.filter (fun r => decide (R.item_key r ≠ R.item_key e))) := by
  intro l
  induction l with
  | nil => intro _; exact List.Perm.refl _
  | cons r rs ih =>
      intro hnd
      rw [List.map_cons, List.nodup_cons] at hnd
      unfold upsert
      by_cases hk : R.item_key r = R.item_key e
      · rw [if_pos hk, List.filter_cons,
          if_neg (fun hdec => (of_decide_eq_true hdec) hk)]
        apply List.Perm.cons
        have hself : rs.filter (fun r₂ => decide (R.item_key r₂ ≠ R.item_key e)) = rs := by
          apply List.filter_eq_self.mpr
          intro x hx
          have hne : R.item_key x ≠ R.item_key e := by
            intro he
            exact hnd.1 (List.mem_map.mpr ⟨x, hx, he.trans hk.symm⟩)
          exact decide_eq_true hne
        rw [hself]
      · rw [if_neg hk, List.filter_cons, if_pos (decide_eq_true hk)]
        have h1 := List.Perm.cons r (ih hnd.2)
        apply h1.trans
        exact List.Perm.swap _ _ _

theorem upsert_itemsNodup (e : ε) : ∀ l : List ε, (l.map R.item_key).Nodup →
    ((upsert R e l).map R.item_key).Nodup := by
  intro l
  induction l with
  | nil => intro _; unfold upsert; simp
  | cons r rs ih =>
      intro hnd
      rw [List.map_cons, List.nodup_cons] at hnd
      unfold upsert
      by_cases hk : R.item_key r = R.item_key e
      · rw [if_pos hk, List.map_cons, List.nodup_cons]
        refine ⟨?_, hnd.2⟩
        rw [← hk]
        exact hnd.1
      · rw [if_neg hk, List.map_cons, List.nodup_cons]
        refine ⟨?_, ih hnd.2⟩
        intro hmem
        rcases List.mem_map.mp hmem with ⟨x, hx, hxk⟩
        rcases mem_upsert hx with rfl | hx₂
        · exact hk hxk.symm
        · exact hnd.1 (List.mem_map.mpr ⟨x, hx₂, hxk⟩)

theorem upsert_find? (e : ε) : ∀ l : List ε,
    (upsert R e l).find? (fun x => decide (R.item_key x = R.item_key e)) =
      some e := by
  intro l
  induction l with
  | nil =>
      unfold upsert
      rw [List.find?_cons_of_pos _ (by simp)]
  | cons r rs ih =>
      unfold upsert
      by_cases hk : R.item_key r = R.item_key e
      · rw [if_pos hk, List.find?_cons_of_pos _ (by simp)]
      · rw [if_neg hk, List.find?_cons_of_neg _ (by simpa using hk)]
        exact ih

end UpsertLemmas

section ModifyAtLemmas

variable {α : Type}

theorem modifyAt_length (f : α → α) : ∀ (l : List α) (i : Nat),
    (modifyAt l i f).length = l.length := by
  intro l
  induction l with
  | nil => intro i; rfl
  | cons a t ih =>
      intro i
      cases i with
      | zero => rfl
      | succ n =>
          unfold modifyAt
          rw [List.length_cons, List.length_cons, ih]

theorem modifyAt_eq_set (f : α → α) : ∀ (l : List α) (i : Nat)
    (h : i < l.length), modifyAt l i f = l.set i (f (l.get ⟨i, h⟩)) := by
  intro l
  induction l with
  | nil => intro i h; cases h
  | cons a t ih =>
      intro i h
      cases i with
      | zero => rfl
      | succ n =>
          unfold modifyAt
          rw [List.set_cons_succ]
          rw [ih]
          rfl

theorem modifyAt_getElem?_self (f : α → α) (l : List α) (i : Nat)
    (h : i < l.length) : (modifyAt l i f)[i]? = (l[i]?).map f := by
  rw [modifyAt_eq_set f l i h]
  rw [List.getElem?_eq_getElem (by rw [List.length_set]; exact h)]
  rw [List.getElem?_eq_getElem h]
  simp only [Option.map_some', Option.some.injEq]
  rw [List.getElem_set, if_pos rfl, List.get_eq_getElem]

theorem modifyAt_getElem?_ne (f : α → α) : ∀ (l : List α) (i j : Nat),
    j ≠ i → (modifyAt l i f)[j]? = l[j]? := by
  intro l
  induction l with
  | nil => intro i j _; rfl
  | cons a t ih =>
      intro i j hji
      cases i with
      | zero =>
          cases j with
          | zero => exact absurd rfl hji
          | succ m => rfl
      | succ n =>
          cases j with
          | zero =>
              unfold modifyAt
              rw [List.getElem?_cons_zero, List.getElem?_cons_zero]
          | succ m =>
              unfold modifyAt
              rw [List.getElem?_cons_succ, List.getElem?_cons_succ]
              exact ih n m (fun he => hji (by rw [he]))

theorem modifyAt_perm (f : α → α) (l : List α) (i : Nat) (h : i < l.length) :
    (modifyAt l i f).Perm (f (l.get ⟨i, h⟩) :: l.eraseIdx i) := by
  rw [modifyAt_eq_set f l i h]
  exact set_cons_perm h _

end ModifyAtLemmas

section AddLemmas

variable {κ ι ε : Type} [DecidableEq κ] [DecidableEq ι] [DecidableEq ε]

theorem chunks_val_inj {s : Storage κ ε} (hc : indexComplete s)
    {a b : ChunkStorage κ ε} (ha : a ∈ s.chunks) (hb : b ∈ s.chunks)
    (hk : a.chunk_key = b.chunk_key) : a = b := by
  rcases List.mem_iff_getElem?.mp ha with ⟨i, hi⟩
  rcases List.mem_iff_getElem?.mp hb with ⟨j, hj⟩
  have hij : i = j := chunks_pos_inj hc hi hj hk
  rw [hij, hj] at hi
  injection hi with hv
  exact hv.symm

theorem mem_iter {s : Storage κ ε} {x : ε} :
    x ∈ Storage.iter s ↔ ∃ c ∈ s.chunks, x ∈ c.records := by
  unfold Storage.iter
  rw [List.mem_flatten]
  constructor
  · rintro ⟨l, hl, hx⟩
    rcases List.mem_map.mp hl with ⟨c, hcm, rfl⟩
    exact ⟨c, hcm, hx⟩
  · rintro ⟨c, hcm, hx⟩
    exact ⟨c.records, List.mem_map.mpr ⟨c, hcm, rfl⟩, hx⟩

theorem modifyAt_append_length (l : List (ChunkStorage κ ε))
    (a : ChunkStorage κ ε) (f : ChunkStorage κ ε → ChunkStorage κ ε) :
    modifyAt (l ++ [a]) l.length f = l ++ [f a] := by
  induction l with
  | nil => rfl
  | cons x t ih =>
      show x :: modifyAt (t ++ [a]) t.length f = x :: (t ++ [f a])
      rw [ih]

theorem add_eq_existing {R : Record κ ι ε} {s s₂ : Storage κ ε} {e : ε}
    {i : Nat} (hcl : s.clean = some s₂)
    (hlook : lookupKey s₂.index (R.chunk_key e) = some i) :
    Storage.add R s e =
      some ⟨modifyAt s₂.chunks i (fun c => c.add R e), s₂.dirty, s₂.index⟩ := by
  unfold Storage.add Storage.chunkIdx
  rw [hcl]
  simp only [Option.map_some']
  rw [hlook]

theorem add_eq_new {R : Record κ ι ε} {s s₂ : Storage κ ε} {e : ε}
    (hcl : s.clean = some s₂)
    (hlook : lookupKey s₂.index (R.chunk_key e) = none) :
    Storage.add R s e =
      some ⟨s₂.chunks ++ [⟨R.chunk_key e, [e]⟩], s₂.dirty,
        insertKey s₂.index (R.chunk_key e) s₂.chunks.length⟩ := by
  unfold Storage.add Storage.chunkIdx
  rw [hcl]
  simp only [Option.map_some']
  rw [hlook]
  have hmod := modifyAt_append_length s₂.chunks ⟨R.chunk_key e, []⟩
    (fun c => c.add R e)
  simp only [Option.some.injEq]
  rw [show (ChunkStorage.add R ⟨R.chunk_key e, []⟩ e) =
    (⟨R.chunk_key e, [e]⟩ : ChunkStorage κ ε) from rfl] at hmod
  rw [hmod]

theorem storageWF_append_filled {R : Record κ ι ε} {s : Storage κ ε}
    (hw : StorageWF R s) (hne : ∀ c ∈ s.chunks, c.records ≠ [])
    (hd : s.dirty = []) {k : κ} (hlk : lookupKey s.index k = none)
    (rs : List ε) (hrs : rs ≠ []) (hhom : ∀ x ∈ rs, R.chunk_key x = k)
    (hitems : (rs.map R.item_key).Nodup) :
    StorageWF R ⟨s.chunks ++ [⟨k, rs⟩], s.dirty,
      insertKey s.index k s.chunks.length⟩ := by
  rcases hw with ⟨hc, hs, hn, hh, hi, _, _⟩
  have hkeyne : ∀ c ∈ s.chunks, c.chunk_key ≠ k := by
    intro c hcm hck
    rcases List.mem_iff_getElem?.mp hcm with ⟨j, hj⟩
    have h9 := indexComplete_lookup hc hj
    rw [hck, hlk] at h9
    cases h9
  refine ⟨?_, ?_, ?_, ?_, ?_, ?_, ?_⟩
  · -- indexComplete
    intro i hi₂
    simp only [List.mem_range, List.length_append, List.length_cons,
      List.length_nil] at hi₂
    by_cases hlt : i < s.chunks.length
    · rw [List.getElem?_append_left hlt]
      cases hgi : s.chunks[i]? with
      | none =>
          rw [List.getElem?_eq_getElem hlt] at hgi
          cases hgi
      | some c =>
          simp only [Option.map_some', Option.some.injEq]
          have hcm : c ∈ s.chunks := by
            rw [List.mem_iff_getElem?]
            exact ⟨i, hgi⟩
          rw [lookupKey_insertKey_ne _ _ (hkeyne c hcm)]
          exact indexComplete_lookup hc hgi
    · have hieq : i = s.chunks.length := by omega
      subst hieq
      rw [List.getElem?_concat_length]
      simp only [Option.map_some', Option.some.injEq]
      exact lookupKey_insertKey_self _ _ _
  · -- indexSound
    intro p hp
    rcases insertKey_mem.mp hp with hnew | ⟨hold, hpk⟩
    · subst hnew
      rw [List.getElem?_concat_length]
      rfl
    · rcases indexSound_chunk hs hold with ⟨c, hcp, hck⟩
      have hlt : p.2 < s.chunks.length := (List.getElem?_eq_some.mp hcp).1
      rw [List.getElem?_append_left hlt, hcp]
      simp [hck]
  · -- indexKeysNodup
    exact insertKey_keysNodup hn _ _
  · -- chunksHomog
    intro c hcm e₂ he
    rcases List.mem_append.mp hcm with hx | hx
    · exact hh c hx e₂ he
    · rcases List.mem_singleton.mp hx with rfl
      exact hhom e₂ he
  · -- chunksItemsNodup
    intro c hcm
    rcases List.mem_append.mp hcm with hx | hx
    · exact hi c hx
    · rcases List.mem_singleton.mp hx with rfl
      exact hitems
  · -- emptiesQueued
    intro p hp hempty
    have hget := List.mk_mem_enum_iff_getElem?.mp hp
    by_cases hlt : p.1 < s.chunks.length
    · rw [List.getElem?_append_left hlt] at hget
      have hcm : p.2 ∈ s.chunks := by
        rw [List.mem_iff_getElem?]
        exact ⟨p.1, hget⟩
      exact absurd hempty (hne p.2 hcm)
    · have hlen : p.1 < s.chunks.length + 1 := by
        have h9 := (List.getElem?_eq_some.mp hget).1
        simpa using h9
      have hieq : p.1 = s.chunks.length := by omega
      rw [hieq, List.getElem?_concat_length] at hget
      injection hget with hget₂
      rw [← hget₂] at hempty
      exact absurd hempty hrs
  · -- dirtyOk
    rw [hd]
    exact ⟨List.nodup_nil, fun i hi₂ => absurd hi₂ (List.not_mem_nil i)⟩

end AddLemmas

section AddWF

variable {κ ι ε : Type} [DecidableEq κ] [DecidableEq ι] [DecidableEq ε]

theorem add_wf {R : Record κ ι ε} {s : Storage κ ε} (hw : StorageWF R s)
    (e : ε) :
    ∃ s₃ : Storage κ ε, Storage.add R s e = some s₃ ∧ StorageWF R s₃ ∧
      Storage.get R s₃ (R.chunk_key e) (R.item_key e) = some e ∧
      (Storage.iter s₃).Perm
        (e :: (Storage.iter s).filter (fun x =>
          decide (¬(R.chunk_key x = R.chunk_key e ∧
            R.item_key x = R.item_key e)))) := by
  rcases storageWF_clean hw with ⟨s₂, hcl, hd₂, _, hwf₂, hne₂, hmem₂⟩
  have hiter₂ : (Storage.iter s₂).Perm (Storage.iter s) := iter_clean_perm hw hcl
  have hfs : ((Storage.iter s₂).filter (fun x =>
      decide (¬(R.chunk_key x = R.chunk_key e ∧
        R.item_key x = R.item_key e)))).Perm
      ((Storage.iter s).filter (fun x =>
        decide (¬(R.chunk_key x = R.chunk_key e ∧
          R.item_key x = R.item_key e)))) :=
    List.Perm.filter _ hiter₂
  cases hlook : lookupKey s₂.index (R.chunk_key e) with
  | none =>
      have hkeyne : ∀ c ∈ s₂.chunks, c.chunk_key ≠ R.chunk_key e := by
        intro c hcm hck
        rcases List.mem_iff_getElem?.mp hcm with ⟨j, hj⟩
        have h9 := indexComplete_lookup hwf₂.1 hj
        rw [hck, hlook] at h9
        cases h9
      have hwf₃ := storageWF_append_filled hwf₂ hne₂ hd₂ hlook
        [e] (by simp)
        (by intro x hx; rcases List.mem_singleton.mp hx with rfl; rfl)
        (by simp)
      refine ⟨_, add_eq_new hcl hlook, hwf₃, ?_, ?_⟩
      · unfold Storage.get
        dsimp only
        rw [lookupKey_insertKey_self]
        simp only [Option.some_bind]
        rw [List.getElem?_concat_length]
        simp only [Option.some_bind]
        unfold ChunkStorage.get
        rw [List.find?_cons_of_pos _ (by simp)]
      · have h1 : Storage.iter (⟨s₂.chunks ++ [⟨R.chunk_key e, [e]⟩],
            s₂.dirty, insertKey s₂.index (R.chunk_key e) s₂.chunks.length⟩ :
            Storage κ ε) = Storage.iter s₂ ++ [e] := by
          unfold Storage.iter
          dsimp only
          rw [List.map_append, List.flatten_append]
          rfl
        rw [h1]
        have h2 : (Storage.iter s₂ ++ [e]).Perm (e :: Storage.iter s₂) :=
          List.perm_append_singleton _ _
        apply h2.trans
        apply List.Perm.cons
        have h3 : (Storage.iter s₂).filter (fun x =>
            decide (¬(R.chunk_key x = R.chunk_key e ∧
              R.item_key x = R.item_key e))) = Storage.iter s₂ := by
          apply List.filter_eq_self.mpr
          intro x hx
          rcases mem_iter.mp hx with ⟨c, hcm, hxc⟩
          apply decide_eq_true
          intro hand
          apply hkeyne c hcm
          rw [← hand.1]
          exact (hwf₂.2.2.2.1 c hcm x hxc).symm
        rw [← h3]
        exact hfs
  | some i =>
      rcases lookupKey_some_chunk hwf₂.2.1 hlook with ⟨c, hci, hck⟩
      have hiL : i < s₂.chunks.length := (List.getElem?_eq_some.mp hci).1
      have hcm : c ∈ s₂.chunks := by
        rw [List.mem_iff_getElem?]
        exact ⟨i, hci⟩
      have hitems_c : (c.records.map R.item_key).Nodup := hwf₂.2.2.2.2.1 c hcm
      have hhom_c : ∀ x ∈ c.records, R.chunk_key x = c.chunk_key :=
        hwf₂.2.2.2.1 c hcm
      have hget_c : s₂.chunks.get ⟨i, hiL⟩ = c := by
        rw [List.get_eq_getElem]
        exact (List.getElem?_eq_some.mp hci).2
      have hself : (modifyAt s₂.chunks i (fun c => c.add R e))[i]? =
          some (c.add R e) := by
        rw [modifyAt_getElem?_self _ _ _ hiL, hci]
        rfl
      have hother : ∀ j : Nat, j ≠ i →
          (modifyAt s₂.chunks i (fun c => c.add R e))[j]? = s₂.chunks[j]? :=
        fun j hj => modifyAt_getElem?_ne _ s₂.chunks i j hj
      have hmem₃ : ∀ c₄ : ChunkStorage κ ε,
          c₄ ∈ modifyAt s₂.chunks i (fun c => c.add R e) →
          c₄ = c.add R e ∨ c₄ ∈ s₂.chunks := by
        intro c₄ hcm₄
        rcases List.mem_iff_getElem?.mp hcm₄ with ⟨j, hj⟩
        by_cases hji : j = i
        · subst hji
          rw [hself] at hj
          injection hj with hj₂
          exact Or.inl hj₂.symm
        · rw [hother j hji] at hj
          refine Or.inr ?_
          rw [List.mem_iff_getElem?]
          exact ⟨j, hj⟩
      have hwf₃ : StorageWF R
          ⟨modifyAt s₂.chunks i (fun c => c.add R e), s₂.dirty, s₂.index⟩ := by
        refine ⟨?_, ?_, hwf₂.2.2.1, ?_, ?_, ?_, ?_⟩
        · -- indexComplete
          intro j hj
          dsimp only at hj ⊢
          simp only [List.mem_range, modifyAt_length] at hj
          by_cases hji : j = i
          · subst hji
            rw [hself]
            simp only [Option.map_some', Option.some.injEq]
            rw [show (ChunkStorage.add R c e).chunk_key = c.chunk_key from rfl]
            exact indexComplete_lookup hwf₂.1 hci
          · rw [hother j hji]
            cases hgj : s₂.chunks[j]? with
            | none =>
                rw [List.getElem?_eq_getElem hj] at hgj
                cases hgj
            | some c₂ =>
                simp only [Option.map_some', Option.some.injEq]
                exact indexComplete_lookup hwf₂.1 hgj
        · -- indexSound
          intro p hp
          dsimp only at hp ⊢
          rcases indexSound_chunk hwf₂.2.1 hp with ⟨c₃, hc₃, hk₃⟩
          by_cases hpi : p.2 = i
          · rw [hpi] at hc₃ ⊢
            rw [hci] at hc₃
            injection hc₃ with hc₄
            rw [hself]
            simp only [Option.map_some', Option.some.injEq]
            rw [show (c.add R e).chunk_key = c.chunk_key from rfl, hc₄, hk₃]
          · rw [hother p.2 hpi, hc₃]
            simp [hk₃]
        · -- chunksHomog
          intro c₄ hcm₄ x hx
          dsimp only at hcm₄
          rcases hmem₃ c₄ hcm₄ with rfl | hmem₅
          · rcases mem_upsert hx with hxe | hx₂
            · rw [show (c.add R e).chunk_key = c.chunk_key from rfl, hxe]
              exact hck.symm
            · rw [show (c.add R e).chunk_key = c.chunk_key from rfl]
              exact hhom_c x hx₂
          · exact hwf₂.2.2.2.1 c₄ hmem₅ x hx
        · -- chunksItemsNodup
          intro c₄ hcm₄
          dsimp only at hcm₄
          rcases hmem₃ c₄ hcm₄ with rfl | hmem₅
          · exact upsert_itemsNodup e c.records hitems_c
          · exact hwf₂.2.2.2.2.1 c₄ hmem₅
        · -- emptiesQueued
          intro p hp hempty
          dsimp only at hp ⊢
          have hget := List.mk_mem_enum_iff_getElem?.mp hp
          by_cases hpi : p.1 = i
          · rw [hpi, hself] at hget
            injection hget with hget₂
            rw [← hget₂] at hempty
            exact absurd hempty (upsert_ne_nil e c.records)
          · rw [hother p.1 hpi] at hget
            have hcm₅ : p.2 ∈ s₂.chunks := by
              rw [List.mem_iff_getElem?]
              exact ⟨p.1, hget⟩
            exact absurd hempty (hne₂ p.2 hcm₅)
        · -- dirtyOk
          dsimp only [dirtyOk]
          rw [hd₂]
          exact ⟨List.nodup_nil, fun j hj => absurd hj (List.not_mem_nil j)⟩
      refine ⟨_, add_eq_existing hcl hlook, hwf₃, ?_, ?_⟩
      · unfold Storage.get
        dsimp only
        rw [hlook]
        simp only [Option.some_bind]
        rw [hself]
        simp only [Option.some_bind]
        exact upsert_find? e c.records
      · -- record multiset accounting
        have hch_perm : (modifyAt s₂.chunks i (fun c => c.add R e)).Perm
            ((c.add R e) :: s₂.chunks.eraseIdx i) := by
          have h9 := modifyAt_perm (fun c => c.add R e) s₂.chunks i hiL
          rw [hget_c] at h9
          exact h9
        have hs₂_perm : s₂.chunks.Perm (c :: s₂.chunks.eraseIdx i) := by
          have h9 := eraseIdx_cons_perm s₂.chunks hiL
          have h10 : s₂.chunks[i] = c := (List.getElem?_eq_some.mp hci).2
          rw [h10] at h9
          exact h9.symm
        have hnodup₂ : (c :: s₂.chunks.eraseIdx i).Nodup :=
          (chunks_nodup hwf₂.1).perm hs₂_perm
        have hcnotin : c ∉ s₂.chunks.eraseIdx i := (List.nodup_cons.mp hnodup₂).1
        have h3 : (Storage.iter
            (⟨modifyAt s₂.chunks i (fun c => c.add R e), s₂.dirty, s₂.index⟩ :
              Storage κ ε)).Perm
            (upsert R e c.records ++
              ((s₂.chunks.eraseIdx i).map (fun d => d.records)).flatten) := by
          unfold Storage.iter
          dsimp only
          have h9 := (hch_perm.map (fun d => d.records)).flatten
          rw [List.map_cons, List.flatten_cons] at h9
          exact h9
        have h4 : (Storage.iter s₂).Perm
            (c.records ++
              ((s₂.chunks.eraseIdx i).map (fun d => d.records)).flatten) := by
          unfold Storage.iter
          have h9 := (hs₂_perm.map (fun d => d.records)).flatten
          rw [List.map_cons, List.flatten_cons] at h9
          exact h9
        have h6 : (c.records.filter (fun x =>
            decide (¬(R.chunk_key x = R.chunk_key e ∧
              R.item_key x = R.item_key e)))) =
            (c.records.filter (fun r =>
              decide (R.item_key r ≠ R.item_key e))) := by
          apply List.filter_congr
          intro x hx
          apply decide_eq_decide.mpr
          constructor
          · intro h9 h10
            exact h9 ⟨by rw [hhom_c x hx, ← hck], h10⟩
          · intro h9 h10
            exact h9 h10.2
        have h7 : ((((s₂.chunks.eraseIdx i).map
            (fun d => d.records)).flatten).filter (fun x =>
              decide (¬(R.chunk_key x = R.chunk_key e ∧
                R.item_key x = R.item_key e)))) =
            ((s₂.chunks.eraseIdx i).map (fun d => d.records)).flatten := by
          apply List.filter_eq_self.mpr
          intro x hx
          rcases List.mem_flatten.mp hx with ⟨l, hl, hxl⟩
          rcases List.mem_map.mp hl with ⟨d, hdm, rfl⟩
          have hdm₂ : d ∈ s₂.chunks :=
            (List.eraseIdx_sublist s₂.chunks i).subset hdm
          apply decide_eq_true
          intro hand
          have hkd : d.chunk_key = R.chunk_key e := by
            rw [← hand.1]
            exact (hwf₂.2.2.2.1 d hdm₂ x hxl).symm
          have hdc : d = c := chunks_val_inj hwf₂.1 hdm₂ hcm (by rw [hkd, hck])
          rw [hdc] at hdm
          exact hcnotin hdm
        apply h3.trans
        have h11 : (upsert R e c.records ++
            ((s₂.chunks.eraseIdx i).map (fun d => d.records)).flatten).Perm
            ((e :: c.records.filter (fun r =>
              decide (R.item_key r ≠ R.item_key e))) ++
              ((s₂.chunks.eraseIdx i).map (fun d => d.records)).flatten) :=
          List.Perm.append_right _ (upsert_perm e c.records hitems_c)
        apply h11.trans
        rw [List.cons_append]
        apply List.Perm.cons
        have h12 : ((Storage.iter s₂).filter (fun x =>
            decide (¬(R.chunk_key x = R.chunk_key e ∧
              R.item_key x = R.item_key e)))).Perm
            ((c.records.filter (fun r =>
              decide (R.item_key r ≠ R.item_key e))) ++
              ((s₂.chunks.eraseIdx i).map (fun d => d.records)).flatten) := by
          have h13 := List.Perm.filter (fun x =>
            decide (¬(R.chunk_key x = R.chunk_key e ∧
              R.item_key x = R.item_key e))) h4
          rw [List.filter_append, h6, h7] at h13
          exact h13
        exact h12.symm.trans hfs

end AddWF

section AddAll

variable {κ ι ε : Type} [DecidableEq κ] [DecidableEq ι] [DecidableEq ε]

theorem storageWF_new {R : Record κ ι ε} :
    StorageWF R (Storage.new : Storage κ ε) := by
  refine ⟨?_, ?_, ?_, ?_, ?_, ?_, ?_⟩
  · intro i hi
    simp [Storage.new] at hi
  · intro p hp
    simp [Storage.new] at hp
  · simp [Storage.new, indexKeysNodup]
  · intro c hc
    simp [Storage.new] at hc
  · intro c hc
    simp [Storage.new] at hc
  · intro p hp
    simp [Storage.new] at hp
  · exact ⟨by simp [Storage.new], by intro i hi; simp [Storage.new] at hi⟩

theorem addAll_wf {R : Record κ ι ε} :
    ∀ (es : List ε) (t : Storage κ ε), StorageWF R t →
    ∀ t₂ : Storage κ ε, addAll R t es = some t₂ → StorageWF R t₂ := by
  intro es
  induction es with
  | nil =>
      intro t hw t₂ h
      unfold addAll at h
      injection h with h₂
      rw [← h₂]
      exact hw
  | cons e es ih =>
      intro t hw t₂ h
      unfold addAll at h
      rcases add_wf hw e with ⟨t₁, hadd, hwf₁, _, _⟩
      rw [hadd] at h
      simp only [Option.some_bind] at h
      exact ih t₁ hwf₁ t₂ h

end AddAll

/-- C2: on every well-formed storage, add succeeds and preserves the
uniqueness invariant: the (chunk key, item key) pairs of the stored records
are pairwise distinct; the record just added is found by get under its
identity, and the resulting record multiset is the added record together
with every previous record except any one sharing its identity pair, which
is dropped (full replacement). The final conjunct extends uniqueness to
every sequence of add calls starting from a fresh storage. -/
theorem C2_add_uniqueness {κ ι ε : Type} [DecidableEq κ] [DecidableEq ι]
    [DecidableEq ε] (R : Record κ ι ε) (s : Storage κ ε) (e : ε)
    (hw : StorageWF R s) :
    ∃ s₃ : Storage κ ε, Storage.add R s e = some s₃ ∧
      StorageWF R s₃ ∧
      ((Storage.iter s₃).map (fun x => (R.chunk_key x, R.item_key x))).Nodup ∧
      Storage.get R s₃ (R.chunk_key e) (R.item_key e) = some e ∧
      (Storage.iter s₃).Perm
        (e :: (Storage.iter s).filter (fun x =>
          decide (¬(R.chunk_key x = R.chunk_key e ∧
            R.item_key x = R.item_key e)))) ∧
      (∀ (es : List ε) (t₂ : Storage κ ε),
        addAll R Storage.new es = some t₂ →
        ((Storage.iter t₂).map
          (fun x => (R.chunk_key x, R.item_key x))).Nodup) := by
  rcases add_wf hw e with ⟨s₃, h1, h2, h3, h4⟩
  refine ⟨s₃, h1, h2, iter_pairs_nodup h2, h3, h4, ?_⟩
  intro es t₂ hfold
  exact iter_pairs_nodup (addAll_wf es Storage.new storageWF_new t₂ hfold)

/-- Witness for C2: adding a record whose identity pair duplicates an
existing record replaces it. -/
theorem C2_add_uniqueness_witness :
    ∃ s₃ : Storage Nat (Nat × Nat × Nat),
      Storage.add tripleRecord sampleSettled (1, 1, 99) = some s₃ ∧
      StorageWF tripleRecord s₃ ∧
      ((Storage.iter s₃).map
        (fun x => (tripleRecord.chunk_key x, tripleRecord.item_key x))).Nodup ∧
      Storage.get tripleRecord s₃ (tripleRecord.chunk_key (1, 1, 99))
        (tripleRecord.item_key (1, 1, 99)) = some (1, 1, 99) ∧
      (Storage.iter s₃).Perm
        ((1, 1, 99) :: (Storage.iter sampleSettled).filter (fun x =>
          decide (¬(tripleRecord.chunk_key x = tripleRecord.chunk_key (1, 1, 99) ∧
            tripleRecord.item_key x = tripleRecord.item_key (1, 1, 99))))) ∧
      (∀ (es : List (Nat × Nat × Nat)) (t₂ : Storage Nat (Nat × Nat × Nat)),
        addAll tripleRecord Storage.new es = some t₂ →
        ((Storage.iter t₂).map
          (fun x => (tripleRecord.chunk_key x, tripleRecord.item_key x))).Nodup) :=
  C2_add_uniqueness tripleRecord sampleSettled (1, 1, 99) (by decide)

section RemoveLemmas

variable {κ ι ε : Type} [DecidableEq κ] [DecidableEq ι] [DecidableEq ε]

theorem removeQ_perm (q : Query κ ε) (c : ChunkStorage κ ε) :
    ((c.removeQ q).1.records ++ (c.removeQ q).2).Perm c.records := by
  unfold ChunkStorage.removeQ
  dsimp only
  rw [← List.map_append]
  have h1 : (c.records.enum.filter
        (fun p => decide (p.1 ∉ q.itemIdxs c)) ++
      c.records.enum.filter (fun p => decide (p.1 ∈ q.itemIdxs c))).Perm
      c.records.enum := by
    have h2 := List.filter_append_perm
      (fun p => decide (p.1 ∉ q.itemIdxs c)) c.records.enum
    have h3 : (c.records.enum.filter
        (fun p => !decide (p.1 ∉ q.itemIdxs c))) =
        (c.records.enum.filter (fun p => decide (p.1 ∈ q.itemIdxs c))) := by
      apply List.filter_congr
      intro p _
      by_cases hp : p.1 ∈ q.itemIdxs c
      · simp [hp]
      · simp [hp]
    rw [h3] at h2
    exact h2
  have h4 := h1.map Prod.snd
  rw [List.enum_map_snd] at h4
  exact h4

theorem removeQ_sublist (q : Query κ ε) (c : ChunkStorage κ ε) :
    (c.removeQ q).1.records.Sublist c.records := by
  unfold ChunkStorage.removeQ
  dsimp only
  have hsub : (c.records.enum.filter
      (fun p => decide (p.1 ∉ q.itemIdxs c))).Sublist c.records.enum :=
    List.filter_sublist _
  have h1 := List.Sublist.map Prod.snd hsub
  rw [List.enum_map_snd] at h1
  exact h1

theorem removeLoop_dirty (q : Query κ ε) : ∀ (idxs : List Nat)
    (st : Storage κ ε) (out : List ε),
    (removeLoop q idxs st out).1.dirty = st.dirty ++ idxs := by
  intro idxs
  induction idxs with
  | nil =>
      intro st out
      simp [removeLoop]
  | cons idx rest ih =>
      intro st out
      unfold removeLoop
      cases hci : st.chunks[idx]? with
      | some c =>
          dsimp only
          rw [hci]
          dsimp only
          rw [ih]
          dsimp only
          rw [List.append_assoc]
          rfl
      | none =>
          dsimp only
          rw [hci]
          dsimp only
          rw [ih]
          dsimp only
          rw [List.append_assoc]
          rfl

theorem removeLoop_index (q : Query κ ε) : ∀ (idxs : List Nat)
    (st : Storage κ ε) (out : List ε),
    (removeLoop q idxs st out).1.index = st.index := by
  intro idxs
  induction idxs with
  | nil => intro st out; rfl
  | cons idx rest ih =>
      intro st out
      unfold removeLoop
      cases hci : st.chunks[idx]? with
      | some c =>
          dsimp only
          rw [hci]
          dsimp only
          rw [ih]
      | none =>
          dsimp only
          rw [hci]
          dsimp only
          rw [ih]

theorem removeLoop_length (q : Query κ ε) : ∀ (idxs : List Nat)
    (st : Storage κ ε) (out : List ε),
    (removeLoop q idxs st out).1.chunks.length = st.chunks.length := by
  intro idxs
  induction idxs with
  | nil => intro st out; rfl
  | cons idx rest ih =>
      intro st out
      unfold removeLoop
      cases hci : st.chunks[idx]? with
      | some c =>
          dsimp only
          rw [hci]
          dsimp only
          rw [ih]
          dsimp only
          rw [List.length_set]
      | none =>
          dsimp only
          rw [hci]
          dsimp only
          rw [ih]

theorem removeLoop_getElem (q : Query κ ε) : ∀ (idxs : List Nat)
    (st : Storage κ ε) (out : List ε) (j : Nat) (c₂ : ChunkStorage κ ε),
    (removeLoop q idxs st out).1.chunks[j]? = some c₂ →
    ∃ c : ChunkStorage κ ε, st.chunks[j]? = some c ∧
      c₂.chunk_key = c.chunk_key ∧ c₂.records.Sublist c.records := by
  intro idxs
  induction idxs with
  | nil =>
      intro st out j c₂ h
      exact ⟨c₂, h, rfl, List.Sublist.refl _⟩
  | cons idx rest ih =>
      intro st out j c₂ h
      unfold removeLoop at h
      dsimp only at h
      cases hci : st.chunks[idx]? with
      | some c =>
          rw [hci] at h
          dsimp only at h
          rcases ih _ _ j c₂ h with ⟨c₃, hc₃, hk₃, hs₃⟩
          dsimp only at hc₃
          by_cases hji : j = idx
          · subst hji
            have hiL : j < st.chunks.length := (List.getElem?_eq_some.mp hci).1
            rw [List.getElem?_set_eq hiL] at hc₃
            injection hc₃ with hc₄
            refine ⟨c, hci, ?_, ?_⟩
            · rw [← hc₄] at hk₃
              exact hk₃
            · rw [← hc₄] at hs₃
              exact hs₃.trans (removeQ_sublist q c)
          · rw [List.getElem?_set_ne (fun he => hji he.symm)] at hc₃
            exact ⟨c₃, hc₃, hk₃, hs₃⟩
      | none =>
          rw [hci] at h
          dsimp only at h
          have h10 := ih _ _ j c₂ h
          exact h10

theorem removeLoop_unvisited (q : Query κ ε) : ∀ (idxs : List Nat)
    (st : Storage κ ε) (out : List ε) (j : Nat), j ∉ idxs →
    (removeLoop q idxs st out).1.chunks[j]? = st.chunks[j]? := by
  intro idxs
  induction idxs with
  | nil => intro st out j _; rfl
  | cons idx rest ih =>
      intro st out j hj
      have hj₁ : j ≠ idx := fun he => hj (he ▸ List.mem_cons_self _ _)
      have hj₂ : j ∉ rest := fun hm => hj (List.mem_cons_of_mem _ hm)
      unfold removeLoop
      cases hci : st.chunks[idx]? with
      | some c =>
          dsimp only
          rw [hci]
          dsimp only
          rw [ih _ _ j hj₂]
          dsimp only
          rw [List.getElem?_set_ne (fun he => hj₁ he.symm)]
      | none =>
          dsimp only
          rw [hci]
          dsimp only
          rw [ih _ _ j hj₂]

theorem removeLoop_iter (q : Query κ ε) : ∀ (idxs : List Nat)
    (st : Storage κ ε) (out : List ε),
    (Storage.iter (removeLoop q idxs st out).1 ++
      (removeLoop q idxs st out).2).Perm (Storage.iter st ++ out) := by
  intro idxs
  induction idxs with
  | nil => intro st out; exact List.Perm.refl _
  | cons idx rest ih =>
      intro st out
      unfold removeLoop
      cases hci : st.chunks[idx]? with
      | none =>
          dsimp only
          rw [hci]
          dsimp only
          exact ih _ _
      | some c =>
          dsimp only
          rw [hci]
          dsimp only
          have hiL : idx < st.chunks.length := (List.getElem?_eq_some.mp hci).1
          have hceq : st.chunks[idx] = c := (List.getElem?_eq_some.mp hci).2
          apply (ih _ _).trans
          -- remaining: iter of the updated state plus extended output is a
          -- permutation of the original records plus original output
          have hset : (st.chunks.set idx (c.removeQ q).1).Perm
              ((c.removeQ q).1 :: st.chunks.eraseIdx idx) :=
            set_cons_perm hiL _
          have hst : st.chunks.Perm (c :: st.chunks.eraseIdx idx) := by
            have h9 := eraseIdx_cons_perm st.chunks hiL
            rw [hceq] at h9
            exact h9.symm
          have h1 : (Storage.iter ({ st with
              dirty := st.dirty ++ [idx],
              chunks := st.chunks.set idx (c.removeQ q).1 } : Storage κ ε)).Perm
              ((c.removeQ q).1.records ++
                ((st.chunks.eraseIdx idx).map (fun d => d.records)).flatten) := by
            unfold Storage.iter
            dsimp only
            have h9 := (hset.map (fun d => d.records)).flatten
            rw [List.map_cons, List.flatten_cons] at h9
            exact h9
          have h2 : (Storage.iter st).Perm
              (c.records ++
                ((st.chunks.eraseIdx idx).map (fun d => d.records)).flatten) := by
            unfold Storage.iter
            have h9 := (hst.map (fun d => d.records)).flatten
            rw [List.map_cons, List.flatten_cons] at h9
            exact h9
          have hkc := removeQ_perm q c
          -- assemble the permutation chain
          have h3 : (Storage.iter ({ st with
              dirty := st.dirty ++ [idx],
              chunks := st.chunks.set idx (c.removeQ q).1 } : Storage κ ε) ++
              (out ++ (c.removeQ q).2)).Perm
              (((c.removeQ q).1.records ++
                ((st.chunks.eraseIdx idx).map (fun d => d.records)).flatten) ++
                (out ++ (c.removeQ q).2)) :=
            List.Perm.append_right _ h1
          apply h3.trans
          have h4 : (((c.removeQ q).1.records ++
              ((st.chunks.eraseIdx idx).map (fun d => d.records)).flatten) ++
              (out ++ (c.removeQ q).2)).Perm
              ((c.records ++
                ((st.chunks.eraseIdx idx).map (fun d => d.records)).flatten) ++
                out) := by
            have h5 : (((c.removeQ q).1.records ++
                ((st.chunks.eraseIdx idx).map (fun d => d.records)).flatten) ++
                (out ++ (c.removeQ q).2)).Perm
                (((c.removeQ q).1.records ++ (c.removeQ q).2) ++
                  (((st.chunks.eraseIdx idx).map
                    (fun d => d.records)).flatten ++ out)) := by
              rw [List.append_assoc, List.append_assoc]
              apply List.Perm.append_left
              rw [← List.append_assoc]
              exact List.perm_append_comm
            apply h5.trans
            have h6 : (((c.removeQ q).1.records ++ (c.removeQ q).2) ++
                (((st.chunks.eraseIdx idx).map
                  (fun d => d.records)).flatten ++ out)).Perm
                (c.records ++
                  (((st.chunks.eraseIdx idx).map
                    (fun d => d.records)).flatten ++ out)) :=
              List.Perm.append_right _ hkc
            apply h6.trans
            rw [List.append_assoc]
          apply h4.trans
          exact List.Perm.append_right _ h2.symm

theorem removeLoop_wf (R : Record κ ι ε) (q : Query κ ε) (idxs : List Nat)
    (s : Storage κ ε) (out : List ε)
    (hw : StorageWF R s) (hd0 : s.dirty = [])
    (hno : idxs.Nodup) (hlt : ∀ i ∈ idxs, i < s.chunks.length) :
    StorageWF R (removeLoop q idxs s out).1 := by
  rcases hw with ⟨hc, hs, hn, hh, hi, he, _⟩
  have hidx := removeLoop_index q idxs s out
  have hlen := removeLoop_length q idxs s out
  have hdirty := removeLoop_dirty q idxs s out
  rw [hd0, List.nil_append] at hdirty
  refine ⟨?_, ?_, ?_, ?_, ?_, ?_, ?_⟩
  · intro i hi₂
    rw [List.mem_range, hlen] at hi₂
    cases hgi : (removeLoop q idxs s out).1.chunks[i]? with
    | none =>
        have h2 := List.getElem?_eq_none_iff.mp hgi
        rw [hlen] at h2
        exact absurd hi₂ (Nat.not_lt.mpr h2)
    | some c₂ =>
        rcases removeLoop_getElem q idxs s out i c₂ hgi with ⟨c, hcg, hk, _⟩
        have h3 := hc i (List.mem_range.mpr hi₂)
        rw [hcg, Option.map_some'] at h3
        injection h3 with h4
        rw [Option.map_some', hidx, hk, h4]
  · intro p hp
    rw [hidx] at hp
    have h3 := hs p hp
    cases hcg : s.chunks[p.2]? with
    | none => rw [hcg] at h3; simp at h3
    | some c =>
        rw [hcg, Option.map_some'] at h3
        injection h3 with h4
        have hp2 : p.2 < s.chunks.length := (List.getElem?_eq_some.mp hcg).1
        cases hgi : (removeLoop q idxs s out).1.chunks[p.2]? with
        | none =>
            have h5 := List.getElem?_eq_none_iff.mp hgi
            rw [hlen] at h5
            exact absurd hp2 (Nat.not_lt.mpr h5)
        | some c₂ =>
            rcases removeLoop_getElem q idxs s out p.2 c₂ hgi with
              ⟨c₀, hcg₀, hk, _⟩
            rw [hcg] at hcg₀
            injection hcg₀ with h5
            rw [Option.map_some', hk, ← h5, h4]
  · unfold indexKeysNodup
    rw [hidx]
    exact hn
  · intro c₂ hcm e hem
    rcases List.mem_iff_getElem?.mp hcm with ⟨j, hj⟩
    rcases removeLoop_getElem q idxs s out j c₂ hj with ⟨c, hcg, hk, hsub⟩
    have hcmem : c ∈ s.chunks := List.mem_iff_getElem?.mpr ⟨j, hcg⟩
    rw [hk]
    exact hh c hcmem e (hsub.subset hem)
  · intro c₂ hcm
    rcases List.mem_iff_getElem?.mp hcm with ⟨j, hj⟩
    rcases removeLoop_getElem q idxs s out j c₂ hj with ⟨c, hcg, _, hsub⟩
    have hcmem : c ∈ s.chunks := List.mem_iff_getElem?.mpr ⟨j, hcg⟩
    exact List.Nodup.sublist (List.Sublist.map R.item_key hsub) (hi c hcmem)
  · intro p hp hempty
    obtain ⟨i, c₂⟩ := p
    rw [hdirty]
    by_cases hmem : i ∈ idxs
    · exact hmem
    · exfalso
      have hg := List.mk_mem_enum_iff_getElem?.mp hp
      rw [removeLoop_unvisited q idxs s out i hmem] at hg
      have h8 := he (i, c₂) (List.mk_mem_enum_iff_getElem?.mpr hg) hempty
      rw [hd0] at h8
      exact (List.not_mem_nil i) h8
  · constructor
    · rw [hdirty]
      exact hno
    · intro i hi₃
      rw [hdirty] at hi₃
      rw [hlen]
      exact hlt i hi₃

theorem remove_spec (R : Record κ ι ε) {q : Query κ ε} (hq : QueryWF q)
    {s : Storage κ ε} (hw : StorageWF R s) (hd0 : s.dirty = []) :
    ∃ (s₃ : Storage κ ε) (out : List ε),
      s.remove q = some (s₃, out) ∧ s₃.dirty = [] ∧ StorageWF R s₃ ∧
      (Storage.iter s₃ ++ out).Perm (Storage.iter s) := by
  have hno := (hq.1 s).1
  have hlt := (hq.1 s).2
  have hwl := removeLoop_wf R q (q.chunkIdxs s) s [] hw hd0 hno hlt
  rcases storageWF_clean hwl with ⟨s₂, hcl, hd₂, _, hwf₂, _, _⟩
  refine ⟨s₂, (removeLoop q (q.chunkIdxs s) s []).2, ?_, hd₂, hwf₂, ?_⟩
  · unfold Storage.remove
    dsimp only
    rw [hcl]
    rfl
  · have h1 := iter_clean_perm hwl hcl
    have h2 := removeLoop_iter q (q.chunkIdxs s) s []
    rw [List.append_nil] at h2
    exact (List.Perm.append_right _ h1).trans h2

theorem modifyLoop_dirty (q : Query κ ε) (f : ε → ε) : ∀ (idxs : List Nat)
    (st : Storage κ ε), (modifyLoop q f st idxs).dirty = st.dirty := by
  intro idxs
  induction idxs with
  | nil => intro st; rfl
  | cons idx rest ih =>
      intro st
      unfold modifyLoop
      rw [List.foldl_cons]
      have h1 := ih { st with
        chunks := modifyAt st.chunks idx (fun c => c.modifyQ q f) }
      unfold modifyLoop at h1
      exact h1

theorem clean_dirty_nil {s s₂ : Storage κ ε} (h : s.clean = some s₂) :
    s₂.dirty = [] := by
  unfold Storage.clean at h
  by_cases hde : s.dirty.isEmpty
  · rw [if_pos hde] at h
    injection h with h1
    rw [← h1]
    exact List.isEmpty_iff.mp hde
  · rw [if_neg hde] at h
    rcases Option.map_eq_some'.mp h with ⟨a, _, h2⟩
    rw [← h2]

theorem modify_dirty {s s₃ : Storage κ ε} {q : Query κ ε} {f : ε → ε}
    (h : s.modify q f = some s₃) : s₃.dirty = [] := by
  unfold Storage.modify at h
  rcases Option.map_eq_some'.mp h with ⟨s₁, hcl, h2⟩
  rw [← h2]
  rw [modifyLoop_dirty q f (q.chunkIdxs s₁) s₁]
  exact clean_dirty_nil hcl

theorem everything_wf : QueryWF (everything : Query κ ε) := by
  constructor
  · intro s
    exact ⟨List.nodup_range _, fun i hi => List.mem_range.mp hi⟩
  · intro c
    exact ⟨List.nodup_range _, fun i hi => List.mem_range.mp hi⟩

end RemoveLemmas

/-- C4 counterexample: modify does not mark visited chunks dirty. On the
settled two-chunk sample, the Everything query resolves both chunk
positions, yet modify with the identity function leaves the compaction
queue empty, while the spec-following marking variant would leave both
positions queued. -/
theorem C4_modify_no_dirty_cex :
    everything.chunkIdxs sampleSettled = [0, 1] ∧
    (Storage.modify sampleSettled everything id).map
      (fun t => t.dirty) = some [] ∧
    (Storage.modifyMarking sampleSettled everything id).map
      (fun t => t.dirty) = some [0, 1] := by
  refine ⟨rfl, ?_, ?_⟩ <;> decide

/-- C4 (amended): remove marks every chunk position the query resolves dirty
(the queue after the visiting loop is the prior queue extended by exactly
the visited positions) and triggers compaction afterwards, so that on a
well-formed settled storage remove succeeds with an empty queue and every
removed record is handed to the caller callback: the surviving records
together with the callback output are a permutation of the original
records. modify, by contrast, never touches the compaction queue: its
visiting loop leaves the queue of any storage unchanged. -/
theorem C4_remove_marks_dirty {κ ι ε : Type} [DecidableEq κ]
    [DecidableEq ι] [DecidableEq ε]
    (R : Record κ ι ε) (q : Query κ ε) (f : ε → ε)
    (s : Storage κ ε) (hq : QueryWF q) (hw : StorageWF R s)
    (hd0 : s.dirty = []) :
    (∀ (idxs : List Nat) (st : Storage κ ε) (out : List ε),
      (removeLoop q idxs st out).1.dirty = st.dirty ++ idxs) ∧
    (∃ (s₃ : Storage κ ε) (out : List ε),
      s.remove q = some (s₃, out) ∧ s₃.dirty = [] ∧
      (Storage.iter s₃ ++ out).Perm (Storage.iter s)) ∧
    (∀ (idxs : List Nat) (st : Storage κ ε),
      (modifyLoop q f st idxs).dirty = st.dirty) ∧
    (∀ s₃ : Storage κ ε, s.modify q f = some s₃ → s₃.dirty = []) := by
  refine ⟨removeLoop_dirty q, ?_, modifyLoop_dirty q f, ?_⟩
  · rcases remove_spec R hq hw hd0 with ⟨s₃, out, h1, h2, _, h4⟩
    exact ⟨s₃, out, h1, h2, h4⟩
  · intro s₃ h
    exact modify_dirty h

/-- Witness for C4: the amended statement instantiated on the settled
two-chunk sample with the Everything query and the identity function. -/
theorem C4_remove_marks_dirty_witness :
    StorageWF tripleRecord sampleSettled ∧
    sampleSettled.dirty = [] ∧
    ((∀ (idxs : List Nat) (st : Storage Nat (Nat × Nat × Nat))
        (out : List (Nat × Nat × Nat)),
      (removeLoop everything idxs st out).1.dirty = st.dirty ++ idxs) ∧
    (∃ (s₃ : Storage Nat (Nat × Nat × Nat)) (out : List (Nat × Nat × Nat)),
      sampleSettled.remove everything = some (s₃, out) ∧ s₃.dirty = [] ∧
      (Storage.iter s₃ ++ out).Perm (Storage.iter sampleSettled)) ∧
    (∀ (idxs : List Nat) (st : Storage Nat (Nat × Nat × Nat)),
      (modifyLoop everything id st idxs).dirty = st.dirty) ∧
    (∀ s₃ : Storage Nat (Nat × Nat × Nat),
      sampleSettled.modify everything id = some s₃ → s₃.dirty = [])) :=
  ⟨by decide, by decide,
    C4_remove_marks_dirty tripleRecord everything id sampleSettled
      everything_wf (by decide) (by decide)⟩

section RoundTripLemmas

variable {κ ι ε : Type} [DecidableEq κ] [DecidableEq ι] [DecidableEq ε]

theorem upsert_fresh (R : Record κ ι ε) (e : ε) : ∀ l : List ε,
    (∀ r ∈ l, R.item_key r ≠ R.item_key e) → upsert R e l = l ++ [e] := by
  intro l
  induction l with
  | nil => intro _; rfl
  | cons r rs ih =>
      intro h
      unfold upsert
      rw [if_neg (h r (List.mem_cons_self r rs))]
      rw [ih (fun x hx => h x (List.mem_cons_of_mem r hx))]
      rfl

theorem foldl_add_chunk_key (R : Record κ ι ε) : ∀ (g : List ε)
    (c : ChunkStorage κ ε),
    (g.foldl (fun cc e => cc.add R e) c).chunk_key = c.chunk_key := by
  intro g
  induction g with
  | nil => intro c; rfl
  | cons e es ih =>
      intro c
      rw [List.foldl_cons, ih]
      rfl

theorem foldl_add_records (R : Record κ ι ε) : ∀ (g : List ε)
    (c : ChunkStorage κ ε),
    ((c.records ++ g).map R.item_key).Nodup →
    (g.foldl (fun cc e => cc.add R e) c).records = c.records ++ g := by
  intro g
  induction g with
  | nil => intro c _; rw [List.foldl_nil, List.append_nil]
  | cons e es ih =>
      intro c h
      rw [List.foldl_cons]
      have hfresh : ∀ r ∈ c.records, R.item_key r ≠ R.item_key e := by
        intro r hr he
        rw [List.map_append] at h
        exact (List.nodup_append.mp h).2.2 (List.mem_map_of_mem _ hr)
          (by rw [he]
              exact List.mem_map_of_mem _ (List.mem_cons_self e es))
      have hadd : (c.add R e).records = c.records ++ [e] := by
        unfold ChunkStorage.add
        dsimp only
        exact upsert_fresh R e c.records hfresh
      have hn2 : (((c.add R e).records ++ es).map R.item_key).Nodup := by
        rw [hadd, List.append_assoc]
        exact h
      have h3 := ih (c.add R e) hn2
      rw [h3, hadd, List.append_assoc, List.singleton_append]

theorem set_append_length : ∀ (l : List (ChunkStorage κ ε))
    (a b : ChunkStorage κ ε), (l ++ [a]).set l.length b = l ++ [b] := by
  intro l
  induction l with
  | nil => intro a b; rfl
  | cons x xs ih =>
      intro a b
      show x :: ((xs ++ [a]).set xs.length b) = x :: (xs ++ [b])
      rw [ih]

theorem chunkStorage_eq_of (d c : ChunkStorage κ ε)
    (h1 : d.chunk_key = c.chunk_key) (h2 : d.records = c.records) : d = c := by
  cases d with
  | mk dk dr =>
      cases c with
      | mk ck cr =>
          dsimp only at h1 h2
          rw [h1, h2]

theorem addChunks_loop (R : Record κ ι ε) : ∀ (cs : List (ChunkStorage κ ε))
    (t : Storage κ ε),
    StorageWF R t → (∀ c ∈ t.chunks, c.records ≠ []) → t.dirty = [] →
    (∀ c ∈ cs, ∀ e ∈ c.records, R.chunk_key e = c.chunk_key) →
    (∀ c ∈ cs, (c.records.map R.item_key).Nodup) →
    ((t.chunks.map (fun c => c.chunk_key)) ++
      cs.map (fun c => c.chunk_key)).Nodup →
    ∃ t₂ : Storage κ ε,
      List.foldlM (fun st g => Storage.add_chunk R st g) t
        (cs.map (fun c => c.records)) = some t₂ ∧
      t₂.chunks = t.chunks ++ cs.filter (fun c => !c.records.isEmpty) ∧
      StorageWF R t₂ ∧ (∀ c ∈ t₂.chunks, c.records ≠ []) ∧ t₂.dirty = [] := by
  intro cs
  induction cs with
  | nil =>
      intro t hw hne hd _ _ _
      refine ⟨t, ?_, ?_, hw, hne, hd⟩
      · rw [List.map_nil, List.foldlM_nil]
        rfl
      · rw [List.filter_nil, List.append_nil]
  | cons c rest ih =>
      intro t hw hne hd hhom hitems hnodup
      have hclean : t.clean = some t := clean_of_dirty_nil hd
      rw [List.map_cons] at hnodup
      by_cases hge0 : c.records = []
      · have hstep : Storage.add_chunk R t c.records = some t := by
          unfold Storage.add_chunk
          rw [hclean, hge0]
          rfl
        have hnodup' : ((t.chunks.map (fun c => c.chunk_key)) ++
            rest.map (fun c => c.chunk_key)).Nodup := by
          apply List.Nodup.sublist _ hnodup
          exact List.Sublist.append_left (List.sublist_cons_self _ _) _
        rcases ih t hw hne hd
          (fun c₃ h => hhom c₃ (List.mem_cons_of_mem c h))
          (fun c₃ h => hitems c₃ (List.mem_cons_of_mem c h))
          hnodup' with ⟨t₂, hfold, hchunks, hwf₂, hne₂, hd₂⟩
        have hneg : (!c.records.isEmpty) = false := by
          rw [hge0]
          rfl
        refine ⟨t₂, ?_, ?_, hwf₂, hne₂, hd₂⟩
        · rw [List.map_cons, List.foldlM_cons, hstep]
          exact hfold
        · rw [hchunks, List.filter_cons,
            if_neg (fun h => Bool.noConfusion (hneg ▸ h))]
      · obtain ⟨e, es, hge⟩ := List.exists_cons_of_ne_nil hge0
        have hkey : R.chunk_key e = c.chunk_key := by
          apply hhom c (List.mem_cons_self c rest) e
          rw [hge]
          exact List.mem_cons_self e es
        have hdisj := (List.nodup_append.mp hnodup).2.2
        have hknotin : c.chunk_key ∉ t.chunks.map
            (fun c => c.chunk_key) := by
          intro hmem
          exact hdisj hmem (List.mem_cons_self _ _)
        have hlk : lookupKey t.index c.chunk_key = none := by
          apply lookupKey_none_of_no_chunk hw.2.1
          intro c₃ hc₃ heq
          exact hknotin (heq ▸ List.mem_map_of_mem _ hc₃)
        have hcidx : t.chunkIdx (R.chunk_key e) =
            (t.chunks.length,
             ⟨t.chunks ++ [⟨R.chunk_key e, []⟩], t.dirty,
              insertKey t.index (R.chunk_key e) t.chunks.length⟩) := by
          unfold Storage.chunkIdx
          rw [hkey, hlk]
        have hnn : ((e :: es).map R.item_key).Nodup := by
          have h9 := hitems c (List.mem_cons_self c rest)
          rw [hge] at h9
          exact h9
        have hceq : ((e :: es).foldl (fun cc x => cc.add R x)
            (⟨R.chunk_key e, []⟩ : ChunkStorage κ ε)) = c := by
          apply chunkStorage_eq_of
          · exact (foldl_add_chunk_key R (e :: es) ⟨R.chunk_key e, []⟩).trans
              hkey
          · rw [hge]
            exact (foldl_add_records R (e :: es) ⟨R.chunk_key e, []⟩
              (by dsimp only
                  rw [List.nil_append]
                  exact hnn)).trans (List.nil_append _)
        have hext : ChunkStorage.extend R
            (⟨R.chunk_key e, []⟩ : ChunkStorage κ ε) (e :: es) = some c := by
          unfold ChunkStorage.extend
          rw [if_pos]
          · rw [hceq]
          · apply List.all_eq_true.mpr
            intro x hx
            apply decide_eq_true
            exact ((hhom c (List.mem_cons_self c rest) x
              (by rw [hge]; exact hx)).trans hkey.symm)
        have hstep : Storage.add_chunk R t c.records =
            some ⟨t.chunks ++ [c], [],
              insertKey t.index c.chunk_key t.chunks.length⟩ := by
          unfold Storage.add_chunk
          rw [hclean]
          simp only [Option.some_bind]
          rw [hge]
          dsimp only
          rw [hcidx]
          dsimp only
          rw [List.getElem?_concat_length]
          simp only [Option.some_bind]
          rw [hext]
          simp only [Option.map_some']
          rw [set_append_length, hkey, hd]
        have hwf₁ := storageWF_append_filled hw hne hd hlk c.records hge0
          (hhom c (List.mem_cons_self c rest))
          (hitems c (List.mem_cons_self c rest))
        rw [hd] at hwf₁
        have hne₁ : ∀ c₃ ∈ (⟨t.chunks ++ [c], [],
            insertKey t.index c.chunk_key t.chunks.length⟩ :
            Storage κ ε).chunks, c₃.records ≠ [] := by
          intro c₃ hc₃
          rcases List.mem_append.mp hc₃ with hx | hx
          · exact hne c₃ hx
          · rw [List.mem_singleton.mp hx]
            exact hge0
        have hnodup₁ : (((⟨t.chunks ++ [c], [],
            insertKey t.index c.chunk_key t.chunks.length⟩ :
            Storage κ ε).chunks.map (fun c => c.chunk_key)) ++
            rest.map (fun c => c.chunk_key)).Nodup := by
          show (((t.chunks ++ [c]).map (fun c => c.chunk_key)) ++
            rest.map (fun c => c.chunk_key)).Nodup
          rw [List.map_append, List.append_assoc]
          exact hnodup
        rcases ih ⟨t.chunks ++ [c], [],
            insertKey t.index c.chunk_key t.chunks.length⟩ hwf₁ hne₁ rfl
          (fun c₃ h => hhom c₃ (List.mem_cons_of_mem c h))
          (fun c₃ h => hitems c₃ (List.mem_cons_of_mem c h))
          hnodup₁ with ⟨t₂, hfold, hchunks, hwf₂, hne₂, hd₂⟩
        have hpos : (!c.records.isEmpty) = true := by
          cases hE : c.records.isEmpty with
          | false => rfl
          | true => exact absurd (List.isEmpty_iff.mp hE) hge0
        refine ⟨t₂, ?_, ?_, hwf₂, hne₂, hd₂⟩
        · rw [List.map_cons, List.foldlM_cons, hstep]
          exact hfold
        · rw [hchunks]
          dsimp only
          rw [List.filter_cons, if_pos hpos, List.append_assoc,
            List.singleton_append]

end RoundTripLemmas

section RoundTripGet

variable {κ ι ε : Type} [DecidableEq κ] [DecidableEq ι] [DecidableEq ε]

theorem filter_get_eq {R : Record κ ι ε} {s t : Storage κ ε}
    (hw : StorageWF R s) (hwt : StorageWF R t)
    (hchunks : t.chunks = s.chunks.filter (fun c => !c.records.isEmpty)) :
    ∀ (ck : κ) (ik : ι), Storage.get R t ck ik = Storage.get R s ck ik := by
  intro ck ik
  have hc := hw.1
  have hsound := hw.2.1
  have hcT := hwt.1
  have hsoundT := hwt.2.1
  unfold Storage.get
  cases hlk : lookupKey s.index ck with
  | none =>
      have h1 : lookupKey t.index ck = none := by
        apply lookupKey_none_of_no_chunk hsoundT
        intro c₃ hc₃ heq
        have hmem : c₃ ∈ s.chunks := by
          rw [hchunks] at hc₃
          exact (List.mem_filter.mp hc₃).1
        rcases List.mem_iff_getElem?.mp hmem with ⟨n, hn⟩
        have h2 := indexComplete_lookup hc hn
        rw [heq, hlk] at h2
        cases h2
      rw [h1]
      rfl
  | some i =>
      rcases lookupKey_some_chunk hsound hlk with ⟨c, hci, hck⟩
      simp only [Option.some_bind]
      rw [hci]
      simp only [Option.some_bind]
      by_cases hempty : c.records = []
      · have h1 : lookupKey t.index ck = none := by
          apply lookupKey_none_of_no_chunk hsoundT
          intro c₃ hc₃ heq
          rw [hchunks] at hc₃
          rcases List.mem_filter.mp hc₃ with ⟨hmem₃, hne₃⟩
          rcases List.mem_iff_getElem?.mp hmem₃ with ⟨n, hn⟩
          have h2 := indexComplete_lookup hc hn
          rw [heq, hlk] at h2
          injection h2 with hni
          rw [← hni, hci] at hn
          injection hn with hcc
          rw [← hcc, hempty] at hne₃
          simp at hne₃
        rw [h1]
        unfold ChunkStorage.get
        rw [hempty]
        rfl
      · have hfm : c ∈ t.chunks := by
          rw [hchunks]
          apply List.mem_filter.mpr
          refine ⟨List.mem_iff_getElem?.mpr ⟨i, hci⟩, ?_⟩
          cases hE : c.records.isEmpty with
          | true => exact absurd (List.isEmpty_iff.mp hE) hempty
          | false => rfl
        rcases List.mem_iff_getElem?.mp hfm with ⟨j, hj⟩
        have h2 := indexComplete_lookup hcT hj
        rw [hck] at h2
        rw [h2]
        simp only [Option.some_bind]
        rw [hj]
        simp only [Option.some_bind]

end RoundTripGet

/-- C3: round-trip through dissolve. For a well-formed storage, feeding the
chunk groups produced by dissolve into add_chunks on a fresh storage
succeeds and reproduces the records exactly: the resulting chunks are the
non-empty chunks of the original in order (records grouped identically by
chunk key), iter yields the very same record sequence, raw produces the
same groups as dissolve, and get answers every identity exactly as the
original storage does. -/
theorem C3_dissolve_roundtrip {κ ι ε : Type} [DecidableEq κ]
    [DecidableEq ι] [DecidableEq ε]
    (R : Record κ ι ε) (s : Storage κ ε) (hw : StorageWF R s) :
    ∃ t : Storage κ ε,
      Storage.add_chunks R Storage.new (s.dissolve) = some t ∧
      t.chunks = s.chunks.filter (fun c => !c.records.isEmpty) ∧
      Storage.iter t = Storage.iter s ∧
      s.raw = s.dissolve ∧
      (∀ (ck : κ) (ik : ι),
        Storage.get R t ck ik = Storage.get R s ck ik) := by
  have hnew : StorageWF R (Storage.new : Storage κ ε) := storageWF_new
  have hnodup : (((Storage.new : Storage κ ε).chunks.map
      (fun c => c.chunk_key)) ++
      s.chunks.map (fun c => c.chunk_key)).Nodup := chunk_keys_nodup hw.1
  rcases addChunks_loop R s.chunks Storage.new hnew
    (by intro c hc; cases hc) rfl
    hw.2.2.2.1 hw.2.2.2.2.1 hnodup with ⟨t, hfold, hchunks, hwfT, _, _⟩
  have hchunks2 : t.chunks =
      s.chunks.filter (fun c => !c.records.isEmpty) := by
    rw [hchunks]
    exact List.nil_append _
  refine ⟨t, ?_, hchunks2, ?_, rfl, filter_get_eq hw hwfT hchunks2⟩
  · unfold Storage.add_chunks
    rw [clean_of_dirty_nil rfl]
    exact hfold
  · unfold Storage.iter
    rw [hchunks2]
    exact flatten_map_filter_nonempty s.chunks

/-- Witness for C3: the round-trip instantiated on the pending sample, whose
second chunk is empty and queued; the rebuild drops exactly that empty chunk
and reproduces every record and every get answer. -/
theorem C3_dissolve_roundtrip_witness :
    StorageWF tripleRecord samplePending ∧
    (∃ t : Storage Nat (Nat × Nat × Nat),
      Storage.add_chunks tripleRecord Storage.new (samplePending.dissolve) =
        some t ∧
      t.chunks = samplePending.chunks.filter
        (fun c => !c.records.isEmpty) ∧
      Storage.iter t = Storage.iter samplePending ∧
      samplePending.raw = samplePending.dissolve ∧
      (∀ (ck ik : Nat),
        Storage.get tripleRecord t ck ik =
          Storage.get tripleRecord samplePending ck ik)) :=
  ⟨by decide,
   C3_dissolve_roundtrip tripleRecord samplePending (by decide)⟩

section GcLemmas

variable {κ ι ε : Type} [DecidableEq κ] [DecidableEq ι] [DecidableEq ε]

theorem mem_gcRemoved_iff {s : Storage κ ε} {pk : List κ} {x : κ} :
    x ∈ gcRemoved s (pk.map some) ↔
    ∃ i : Nat, pk[i]? = some x ∧
      (s.chunks[i]?).map (fun c => c.chunk_key) ≠ some x := by
  unfold gcRemoved
  rw [List.mem_flatMap]
  constructor
  · rintro ⟨i, _, hx⟩
    dsimp only at hx
    rw [List.getElem?_map] at hx
    refine ⟨i, ?_⟩
    cases hpki : pk[i]? with
    | none =>
        rw [hpki] at hx
        simp only [Option.map_none', Option.getD_none] at hx
        cases hci : s.chunks[i]? with
        | none =>
            rw [hci] at hx
            dsimp only at hx
            cases hx
        | some c =>
            rw [hci] at hx
            dsimp only at hx
            rw [if_neg (fun h => Option.noConfusion h)] at hx
            cases hx
    | some k =>
        rw [hpki] at hx
        simp only [Option.map_some', Option.getD_some] at hx
        cases hci : s.chunks[i]? with
        | none =>
            rw [hci] at hx
            dsimp only at hx
            have hxk : x = k := List.mem_singleton.mp hx
            refine ⟨by rw [hxk], ?_⟩
            exact fun h => Option.noConfusion h
        | some c =>
            rw [hci] at hx
            dsimp only at hx
            by_cases hkc : k = c.chunk_key
            · rw [if_pos (by rw [hkc])] at hx
              cases hx
            · rw [if_neg (fun h => hkc (Option.some.inj h))] at hx
              have hxk : x = k := List.mem_singleton.mp hx
              refine ⟨by rw [hxk], ?_⟩
              rw [Option.map_some']
              intro h
              injection h with h2
              exact hkc ((h2.trans hxk).symm)
  · rintro ⟨i, hpki, hne⟩
    refine ⟨i, ?_, ?_⟩
    · rw [List.mem_range]
      have h1 : i < pk.length := (List.getElem?_eq_some.mp hpki).1
      rw [List.length_map]
      exact lt_of_lt_of_le h1 (le_max_right _ _)
    · dsimp only
      rw [List.getElem?_map, hpki]
      simp only [Option.map_some', Option.getD_some]
      cases hci : s.chunks[i]? with
      | none =>
          dsimp only
          exact List.mem_singleton.mpr rfl
      | some c =>
          dsimp only
          have hkc : x ≠ c.chunk_key := by
            intro h
            apply hne
            rw [hci, Option.map_some', ← h]
          rw [if_neg (fun h => hkc (Option.some.inj h))]
          exact List.mem_singleton.mpr rfl

theorem mem_gcAdded_iff {s : Storage κ ε} {pk : List κ} {x : κ} :
    x ∈ gcAdded s (pk.map some) ↔
    ∃ (i : Nat) (c : ChunkStorage κ ε), s.chunks[i]? = some c ∧
      c.chunk_key = x ∧ pk[i]? ≠ some x := by
  unfold gcAdded
  rw [List.mem_flatMap]
  constructor
  · rintro ⟨i, _, hx⟩
    dsimp only at hx
    rw [List.getElem?_map] at hx
    cases hci : s.chunks[i]? with
    | none =>
        rw [hci] at hx
        dsimp only at hx
        cases hx
    | some c =>
        rw [hci] at hx
        dsimp only at hx
        by_cases hcond : ((pk[i]?).map some).getD none = some c.chunk_key
        · rw [if_pos hcond] at hx
          cases hx
        · rw [if_neg hcond] at hx
          have hxk : x = c.chunk_key := List.mem_singleton.mp hx
          refine ⟨i, c, hci, hxk.symm, ?_⟩
          intro hpx
          apply hcond
          rw [hpx]
          simp only [Option.map_some', Option.getD_some]
          rw [hxk]
  · rintro ⟨i, c, hci, hkx, hpne⟩
    refine ⟨i, ?_, ?_⟩
    · rw [List.mem_range]
      exact (List.getElem?_eq_some.mp hci).1
    · dsimp only
      rw [List.getElem?_map, hci]
      dsimp only
      have hcond : ¬(((pk[i]?).map some).getD none = some c.chunk_key) := by
        intro h
        apply hpne
        cases hpki : pk[i]? with
        | none =>
            rw [hpki, Option.map_none', Option.getD_none] at h
            exact Option.noConfusion h
        | some k =>
            rw [hpki] at h
            simp only [Option.map_some', Option.getD_some] at h
            injection h with h2
            rw [h2, hkx]
      rw [if_neg hcond]
      exact List.mem_singleton.mpr hkx.symm

theorem gc_mem_iff {s : Storage κ ε} {pk : List κ} (hnd : pk.Nodup) (x : κ) :
    (x ∈ gcRemoved s (pk.map some) ∧ x ∉ gcAdded s (pk.map some)) ↔
    (x ∈ pk ∧ x ∉ s.chunks.map (fun c => c.chunk_key)) := by
  constructor
  · rintro ⟨hrem, hnadd⟩
    rcases mem_gcRemoved_iff.mp hrem with ⟨i, hpki, hne⟩
    constructor
    · exact List.mem_iff_getElem?.mpr ⟨i, hpki⟩
    · intro hcur
      rcases List.mem_map.mp hcur with ⟨c, hcmem, hck⟩
      rcases List.mem_iff_getElem?.mp hcmem with ⟨j, hj⟩
      apply hnadd
      apply mem_gcAdded_iff.mpr
      refine ⟨j, c, hj, hck, ?_⟩
      intro hpkj
      have hij : i = j :=
        List.getElem?_inj (List.getElem?_eq_some.mp hpki).1 hnd
          (by rw [hpki, hpkj])
      rw [← hij] at hj
      apply hne
      rw [hj, Option.map_some', hck]
  · rintro ⟨hpk, hncur⟩
    rcases List.mem_iff_getElem?.mp hpk with ⟨i, hpki⟩
    constructor
    · apply mem_gcRemoved_iff.mpr
      refine ⟨i, hpki, ?_⟩
      intro hmap
      cases hci : s.chunks[i]? with
      | none =>
          rw [hci] at hmap
          exact Option.noConfusion hmap
      | some c =>
          rw [hci, Option.map_some'] at hmap
          injection hmap with h2
          apply hncur
          rw [← h2]
          exact List.mem_map_of_mem _ (List.mem_iff_getElem?.mpr ⟨i, hci⟩)
    · intro hadd
      rcases mem_gcAdded_iff.mp hadd with ⟨j, c, hj, hck, _⟩
      apply hncur
      rw [← hck]
      exact List.mem_map_of_mem _ (List.mem_iff_getElem?.mpr ⟨j, hj⟩)

theorem gcSnapshot_eq (s : Storage κ ε) (cl : List (Option κ)) :
    gcSnapshot s cl = s.chunks.map (fun c => some c.chunk_key) := by
  apply List.ext_getElem?
  intro n
  unfold gcSnapshot
  rw [List.getElem?_map, List.getElem?_map]
  by_cases hn : n < s.chunks.length
  · rw [List.getElem?_range hn]
    simp only [Option.map_some']
    obtain ⟨c, hc⟩ : ∃ c, s.chunks[n]? = some c := by
      cases hcn : s.chunks[n]? with
      | none =>
          exact absurd hn
            (Nat.not_lt.mpr (List.getElem?_eq_none_iff.mp hcn))
      | some c => exact ⟨c, rfl⟩
    rw [hc]
    dsimp only
    by_cases hp : ((cl[n]?).getD none) = some c.chunk_key
    · rw [if_pos hp, hp, Option.map_some']
    · rw [if_neg hp, Option.map_some']
  · have h1 : (List.range s.chunks.length)[n]? = none := by
      rw [List.getElem?_eq_none_iff, List.length_range]
      omega
    have h2 : s.chunks[n]? = none := by
      rw [List.getElem?_eq_none_iff]
      omega
    rw [h1, h2]
    rfl

end GcLemmas

/-- C8: the incremental cleanup of gc, with the rolling snapshot modelled
from the spec as the chunk-key summary the previous pass left behind (the
reduce pass of the missing RVec type visits each slot and compares the
previous summary against the current chunk key). Under pairwise-distinct
previous keys, gc removes from the derived map exactly the entries of
chunk keys that were present before and are absent now; every chunk key
currently present keeps its entry, and the pass leaves the snapshot
summarising exactly the current chunk keys. -/
theorem C8_gc_diff {κ ε T : Type} [DecidableEq κ] [DecidableEq ε]
    (s : Storage κ ε) (prevKeys : List κ) (data : List (κ × T))
    (hnd : prevKeys.Nodup) :
    (Storage.gc s (prevKeys.map some) data).2 =
      data.filter (fun kv => decide (¬(kv.1 ∈ prevKeys ∧
        ¬(kv.1 ∈ s.chunks.map (fun c => c.chunk_key))))) ∧
    (∀ kv ∈ data, kv.1 ∈ s.chunks.map (fun c => c.chunk_key) →
      kv ∈ (Storage.gc s (prevKeys.map some) data).2) ∧
    (Storage.gc s (prevKeys.map some) data).1 =
      s.chunks.map (fun c => some c.chunk_key) := by
  have hfil : (Storage.gc s (prevKeys.map some) data).2 =
      data.filter (fun kv => decide (¬(kv.1 ∈ prevKeys ∧
        ¬(kv.1 ∈ s.chunks.map (fun c => c.chunk_key))))) := by
    unfold Storage.gc
    dsimp only
    apply List.filter_congr
    intro kv _
    exact decide_eq_decide.mpr (not_congr (gc_mem_iff hnd kv.1))
  refine ⟨hfil, ?_, ?_⟩
  · intro kv hkv hcur
    rw [hfil]
    apply List.mem_filter.mpr
    refine ⟨hkv, ?_⟩
    apply decide_eq_true
    intro hand
    exact hand.2 hcur
  · unfold Storage.gc
    dsimp only
    exact gcSnapshot_eq s (prevKeys.map some)

/-- Witness for C8: against the settled two-chunk sample (chunk keys 1 and
2), a previous snapshot listing keys 1 and 3 and a derived map with entries
for keys 1, 3 and 5: the entry of the vanished key 3 is dropped, the entries
of the present key 1 and the never-tracked key 5 survive, and the snapshot
is rolled to the current keys. -/
theorem C8_gc_diff_witness :
    ([1, 3] : List Nat).Nodup ∧
    ((Storage.gc sampleSettled ([1, 3].map some)
        [(1, 10), (3, 30), (5, 50)]).2 =
      [(1, 10), (3, 30), (5, 50)].filter (fun kv =>
        decide (¬(kv.1 ∈ ([1, 3] : List Nat) ∧
          ¬(kv.1 ∈ sampleSettled.chunks.map (fun c => c.chunk_key))))) ∧
    (∀ kv ∈ ([(1, 10), (3, 30), (5, 50)] : List (Nat × Nat)),
      kv.1 ∈ sampleSettled.chunks.map (fun c => c.chunk_key) →
      kv ∈ (Storage.gc sampleSettled ([1, 3].map some)
        [(1, 10), (3, 30), (5, 50)]).2) ∧
    (Storage.gc sampleSettled ([1, 3].map some)
        [(1, 10), (3, 30), (5, 50)]).1 =
      sampleSettled.chunks.map (fun c => some c.chunk_key)) :=
  ⟨by decide,
   C8_gc_diff sampleSettled [1, 3] [(1, 10), (3, 30), (5, 50)] (by decide)⟩
